import Mathlib

/-! git-timeline: the versioned-content engine

A shallow embedding of `pkg/models`, `pkg/storage/timeline` and the handlers of
`pkg/server`, with the properties of the storage layer proved over it.

Conventions of the embedding.

* A Go `error` is identified with the text of its `Error()` method; `nil` is `none`.
* A Go `string` / `[]byte` is a `String`; the two conversions are the identity.
* `time.Time` is a `Nat` (an instant).
* A method with a receiver that holds an interface takes the interface value as an
  explicit record of functions over a state type.
* go-git and the operating system are outside the repository.  Their part is modelled by
  `Repository` below: the ancestry of the tip as a list of commits (newest first, each
  commit's parent is the next element), the staging index and the working copy.  Paths are
  opaque keys, a commit stores message and author name as given, and a call that can only
  fail for a reason outside the contents of the repository (disk, object store) succeeds.
  What the environment chooses for one call (the clock, the name of the new commit object,
  and what go-git resolves a revision expression to when it is neither HEAD nor the full
  name of a stored commit) is passed in as a `World`; `uuid.New()` is passed in as a string.
* For `l.mutex`, each method of the communicator also has the sequence of its mutex
  operations and repository accesses in program order (`eventsOfCommitFile` and its
  siblings); `Goroutines` runs such sequences next to each other, `Lock` being possible only
  while no call holds the mutex.
-/

namespace GitTimeline

/-! ## Go errors -/

/-- A Go error value, identified with the text `Error()` returns. -/
structure GoError where
  Error : String
deriving DecidableEq, Repr

/-- The call `fmt.Errorf(pfx + "%w", err)`: the text of the wrapped error follows `pfx`. -/
def Errorf (pfx : String) (err : GoError) : GoError :=
  ⟨pfx ++ err.Error⟩

/-- Instants of `time.Time`. -/
abbrev Time := Nat

/-! ## pkg/models -/

/-- models.PostContent -/
structure PostContent where
  Body : String
  Title : String
  Username : String
deriving DecidableEq, Repr

/-- models.PostMetadata -/
structure PostMetadata where
  PostID : String
  Title : String
  Date : String
  VersionsNumber : Int
  Username : String
deriving DecidableEq, Repr

/-- models.PostVersionMetadata -/
structure PostVersionMetadata where
  VersionId : String
  Title : String
  Date : Time
  User : String
deriving DecidableEq, Repr

/-! ## pkg/storage/timeline: gitRepositoryCommunicator.go -/

/-- timeline.Commit -/
structure Commit where
  Message : String
  Date : Time
  Author : String
  CommitId : String
deriving DecidableEq, Repr

/-- timeline.Timeline: ordered commits of a single file. -/
structure Timeline where
  Commits : List Commit
deriving DecidableEq, Repr

/-- The interface `GitRepositoryCommunitor`, over a backend state `σ`.
`CommitFile` returns the Go pair `(string, error)`; the two reads return either the error or
the values (the pointer results are non-nil when the error is nil). -/
structure GitRepositoryCommunitor (σ : Type) where
  CommitFile : String → String → String → String → σ → (String × Option GoError) × σ
  GetFileContent : String → String → σ → Except GoError (String × Commit)
  GetFileTimeline : String → σ → Except GoError Timeline

/-! ## pkg/storage/timeline: gitStorage.go -/

namespace GitStorage

variable {σ : Type}

/-- GitStorage.CreatePost; `newUUID` is the value of `uuid.New()`. -/
def CreatePost (g : GitRepositoryCommunitor σ) (newUUID : String) (post : PostContent)
    (s : σ) : (String × Option GoError) × σ :=
  let uuidStr := newUUID
  let filename := uuidStr ++ ".json"
  let postData := post.Body
  match g.CommitFile filename post.Title post.Username postData s with
  | ((commitId, err), s') =>
    match err with
    | some e => (("", some (Errorf "failed to write to file: " e)), s')
    | none =>
      if commitId = "" then (("", some ⟨"nothing changed"⟩), s')
      else ((uuidStr, none), s')

/-- GitStorage.GetPost -/
def GetPost (g : GitRepositoryCommunitor σ) (id : String) (s : σ) : Except GoError String :=
  let postPath := id ++ ".json"
  match g.GetFileContent postPath "HEAD" s with
  | .error err => .error (Errorf "failed to get target: " err)
  | .ok (content, _) => .ok content

/-- The body of the `for ... range commits.Commits` loop of GetPostTimeline. -/
def appendVersion (postVersions : List PostVersionMetadata) (commit : Commit) :
    List PostVersionMetadata :=
  postVersions ++
    [{ VersionId := commit.CommitId, Title := commit.Message, Date := commit.Date,
       User := commit.Author }]

/-- GitStorage.GetPostTimeline -/
def GetPostTimeline (g : GitRepositoryCommunitor σ) (id : String) (s : σ) :
    Except GoError (List PostVersionMetadata) :=
  let postPath := id ++ ".json"
  match g.GetFileTimeline postPath s with
  | .error err => .error (Errorf "failed to get target: " err)
  | .ok commits => .ok (commits.Commits.foldl appendVersion [])

/-- GitStorage.GetPostVersion -/
def GetPostVersion (g : GitRepositoryCommunitor σ) (id : String) (versionIdentifier : String)
    (s : σ) : Except GoError PostContent :=
  let postPath := id ++ ".json"
  match g.GetFileContent postPath versionIdentifier s with
  | .error err => .error (Errorf "failed to get target: " err)
  | .ok (content, commit) =>
    .ok { Title := commit.Message, Body := content, Username := commit.Author }

/-- GitStorage.EditPost -/
def EditPost (g : GitRepositoryCommunitor σ) (postId : String) (post : PostContent)
    (s : σ) : (String × Option GoError) × σ :=
  let filename := postId ++ ".json"
  let postData := post.Body
  match g.CommitFile filename post.Title post.Username postData s with
  | ((commitId, err), s') =>
    match err with
    | some e => (("", some (Errorf "failed to write to file: " e)), s')
    | none =>
      if commitId = "" then (("", some ⟨"nothing changed"⟩), s')
      else ((commitId, none), s')

end GitStorage

/-! ## The repository behind LocalGitRepositoryCommunicator -/

/-- Files by path: a tree of a commit, the staging index, or the working copy. -/
abbrev Files := List (String × String)

/-- The content stored at `path`, if any. -/
def Files.get (path : String) : Files → Option String
  | [] => none
  | (p, c) :: rest => if p = path then some c else Files.get path rest

/-- Store `content` at `path`, replacing what was there. -/
def Files.put (path content : String) : Files → Files
  | [] => [(path, content)]
  | (p, c) :: rest =>
    if p = path then (p, content) :: rest else (p, c) :: Files.put path content rest

/-- The paths present. -/
def Files.paths (fs : Files) : List String :=
  fs.map Prod.fst

/-- A commit object of go-git, with the fields the source reads and its tree. -/
structure CommitObject where
  Hash : String
  Message : String
  AuthorName : String
  AuthorWhen : Time
  Tree : Files
deriving DecidableEq, Repr

/-- The on-disk repository: `commits` is the ancestry of the tip, newest first. -/
structure Repository where
  commits : List CommitObject
  index : Files
  worktree : Files
deriving DecidableEq, Repr

/-- What the environment supplies to one call of the communicator: `time.Now()`, as the
commit object records it; the name go-git computes for the commit object it creates; and
what go-git's `ResolveRevision` answers for a revision that is neither the name HEAD nor
the full name of a stored commit (a branch or tag name, `HEAD~n`, `HEAD^`, an abbreviated
name, any other revision expression): the name of a commit, or nothing when the revision
does not resolve. -/
structure World where
  now : Time
  hash : String
  revision : String → Option String

namespace Repository

/-- The result of `git.PlainInit`: no commit, nothing staged, an empty working copy. -/
def init : Repository :=
  { commits := [], index := [], worktree := [] }

/-- The tree of the first commit of an ancestry; the empty tree when there is no commit. -/
def tipTree : List GitTimeline.CommitObject → Files
  | [] => []
  | c :: _ => c.Tree

/-- The tree of the tip; empty when there is no commit yet. -/
def headTree (r : Repository) : Files :=
  tipTree r.commits

/-- The calls `os.Create` and `outputFile.Write`: the working file holds exactly `content`. -/
def writeFile (r : Repository) (filename content : String) : Repository :=
  { r with worktree := r.worktree.put filename content }

/-- The call `workTree.Add(filename)`: the staged entry becomes the working file. -/
def Add (r : Repository) (filename : String) : Repository :=
  match r.worktree.get filename with
  | some c => { r with index := r.index.put filename c }
  | none => r

/-- The call `workTree.Status()`, as the paths whose line `Status.String()` prints: those whose
staged entry differs from the tip's tree or whose working file differs from the staged
entry.  `len(status.String()) == 0` holds exactly when this list is empty. -/
def Status (r : Repository) : List String :=
  (r.headTree.paths ++ r.index.paths ++ r.worktree.paths).filter fun p =>
    decide (r.headTree.get p ≠ r.index.get p) || decide (r.index.get p ≠ r.worktree.get p)

/-- The call `workTree.Commit(commitMessage, &git.CommitOptions{Author: ...})`: a commit of the
staged tree, with the tip as parent, becomes the tip. -/
def Commit (r : Repository) (w : World) (commitMessage author : String) :
    String × Repository :=
  let c : CommitObject :=
    { Hash := w.hash, Message := commitMessage, AuthorName := author, AuthorWhen := w.now,
      Tree := r.index }
  (c.Hash, { r with commits := c :: r.commits })

/-- The call `repository.ResolveRevision(plumbing.Revision(commitId))`, on whatever string
the caller passed.  HEAD is the tip; the full name of a stored commit is that commit, which
go-git prefers to a reference of the same name; every other revision is resolved as the
environment says (`w.revision`). -/
def ResolveRevision (r : Repository) (w : World) (rev : String) : Except GoError String :=
  if rev = "HEAD" then
    match r.commits with
    | [] => .error ⟨"reference not found"⟩
    | c :: _ => .ok c.Hash
  else
    match r.commits.find? (fun c => decide (c.Hash = rev)) with
    | some c => .ok c.Hash
    | none =>
      match w.revision rev with
      | some hash => .ok hash
      | none => .error ⟨"reference not found"⟩

/-- The call `repository.CommitObject(hash)`. -/
def CommitObject (r : Repository) (hash : String) : Except GoError CommitObject :=
  match r.commits.find? (fun c => decide (c.Hash = hash)) with
  | some c => .ok c
  | none => .error ⟨"object not found"⟩

/-- The call `commit.File(filename)` followed by `file.Contents()`. -/
def File (c : GitTimeline.CommitObject) (filename : String) : Except GoError String :=
  match c.Tree.get filename with
  | some content => .ok content
  | none => .error ⟨"file not found"⟩

/-- The call `repository.Head()`. -/
def Head (r : Repository) : Except GoError String :=
  match r.commits with
  | [] => .error ⟨"reference not found"⟩
  | c :: _ => .ok c.Hash

/-- The iterator of `repository.Log` with a `FileName`: walking from the tip, the commits whose
tree differs at `filename` from their parent's (from the empty tree, for the first commit). -/
def Log (filename : String) : List GitTimeline.CommitObject → List GitTimeline.CommitObject
  | [] => []
  | c :: rest =>
    let parentTree : Files := tipTree rest
    if c.Tree.get filename ≠ parentTree.get filename then c :: Log filename rest
    else Log filename rest

end Repository

/-! ## pkg/storage/timeline: localGitRepositoryCommunicator.go -/

namespace LocalGitRepositoryCommunicator

/-- LocalGitRepositoryCommunicator.CommitFile.  Its calls to the operating system and to
go-git succeed (see the conventions above), so of the returns of the source the two that
remain are the empty commit id on an empty status and the name of the new commit. -/
def CommitFile (w : World) (filename commitMessage author content : String)
    (r : Repository) : (String × Option GoError) × Repository :=
  let r1 := r.writeFile filename content
  let r2 := r1.Add filename
  let status := r2.Status
  if status.length = 0 then
    (("", none), r2)
  else
    match r2.Commit w commitMessage author with
    | (commitHash, r3) => ((commitHash, none), r3)

/-- LocalGitRepositoryCommunicator.GetFileContent.  It fails when the revision does not
resolve or the commit has no file at `filename`. -/
def GetFileContent (w : World) (filename commitId : String) (r : Repository) :
    Except GoError (String × Commit) :=
  match r.ResolveRevision w commitId with
  | .error err => .error (Errorf "failed to resolve revision: " err)
  | .ok commitHash =>
    match r.CommitObject commitHash with
    | .error err => .error (Errorf "failed to get commit: " err)
    | .ok commit =>
      match Repository.File commit filename with
      | .error err => .error (Errorf "failed to get file: " err)
      | .ok content =>
        .ok (content,
          { Message := commit.Message, Author := commit.AuthorName, Date := commit.AuthorWhen,
            CommitId := commit.Hash })

/-- The callback of `historyIterator.ForEach` in GetFileTimeline. -/
def appendCommit (commits : List Commit) (c : CommitObject) : List Commit :=
  commits ++
    [{ Message := c.Message, CommitId := c.Hash, Author := c.AuthorName, Date := c.AuthorWhen }]

/-- LocalGitRepositoryCommunicator.GetFileTimeline.  It fails when there is no HEAD; the
iterator itself does not fail. -/
def GetFileTimeline (filename : String) (r : Repository) : Except GoError Timeline :=
  match r.Head with
  | .error err => .error (Errorf "failed to get repository head: " err)
  | .ok _ =>
    let historyIterator := Repository.Log filename r.commits
    let commits := historyIterator.foldl appendCommit []
    .ok { Commits := commits }

end LocalGitRepositoryCommunicator

/-- LocalGitRepositoryCommunicator as a `GitRepositoryCommunitor`, during a call in which the
environment answers `w`. -/
def Local (w : World) : GitRepositoryCommunitor Repository :=
  { CommitFile := LocalGitRepositoryCommunicator.CommitFile w
    GetFileContent := LocalGitRepositoryCommunicator.GetFileContent w
    GetFileTimeline := LocalGitRepositoryCommunicator.GetFileTimeline }

/-- The summary GetPostTimeline gives for a commit object of the local repository. -/
def summaryOf (c : CommitObject) : PostVersionMetadata :=
  { VersionId := c.Hash, Title := c.Message, Date := c.AuthorWhen, User := c.AuthorName }

/-! ## Histories of calls on the local repository -/

/-- A mutating call of the storage layer on the local repository, with what the environment
answers during the call. -/
inductive Op where
  | create (w : World) (newUUID : String) (post : PostContent)
  | edit (w : World) (postId : String) (post : PostContent)

namespace Op

/-- The environment's answers during the call. -/
def world : Op → World
  | create w _ _ => w
  | edit w _ _ => w

/-- The document the call is about. -/
def docId : Op → String
  | create _ newUUID _ => newUUID
  | edit _ postId _ => postId

/-- The content given to the call. -/
def content : Op → PostContent
  | create _ _ post => post
  | edit _ _ post => post

/-- What a successful call hands back: CreatePost the id of the document, EditPost the
version id, which is the name of the new commit. -/
def answer : Op → String
  | create _ newUUID _ => newUUID
  | edit w _ _ => w.hash

/-- The call itself. -/
def call : Op → Repository → (String × Option GoError) × Repository
  | create w newUUID post, r => GitStorage.CreatePost (Local w) newUUID post r
  | edit w postId post, r => GitStorage.EditPost (Local w) postId post r

end Op

/-- The repository after a sequence of calls, whatever each returned. -/
def runOps : List Op → Repository → Repository
  | [], r => r
  | op :: ops, r => runOps ops (op.call r).2

/-- The names of the commit objects stored in the repository. -/
def Repository.hashes (r : Repository) : List String :=
  r.commits.map fun c => c.Hash

/-- No call of the sequence is given, for its new commit, the name of an object that the
repository already stores. -/
def CollisionFree : List Op → Repository → Prop
  | [], _ => True
  | op :: ops, r => op.world.hash ∉ r.hashes ∧ CollisionFree ops (op.call r).2

/-- No commit of the repository has a file at `path`. -/
def Repository.NeverCommitted (r : Repository) (path : String) : Prop :=
  ∀ c ∈ r.commits, c.Tree.get path = none

/-! ## pkg/server -/

/-- The interface server.TimelinePostStorage, over a storage state `σ`. -/
structure TimelinePostStorage (σ : Type) where
  CreatePost : PostContent → σ → (String × Option GoError) × σ
  GetPost : String → σ → Except GoError String
  GetPostTimeline : String → σ → Except GoError (List PostVersionMetadata)
  GetPostVersion : String → String → σ → Except GoError PostContent
  EditPost : String → PostContent → σ → (String × Option GoError) × σ

/-- The interface server.PostMetadataStorage, over a store state `μ`.  GetPostMetadata returns
the Go pair `(*models.PostMetadata, error)`. -/
structure PostMetadataStorage (μ : Type) where
  CreatePostMetadata : PostMetadata → μ → Option GoError × μ
  UpdatePostMetadata : PostMetadata → μ → Option GoError × μ
  GetPostMetadata : String → μ → Option PostMetadata × Option GoError
  GetAllPostsMetadata : μ → Except GoError (List PostMetadata)

/-- GitStorage as the timeline storage of the server, during a call in which `uuid.New()`
answers `newUUID`. -/
def GitStorage.storage {σ : Type} (g : GitRepositoryCommunitor σ) (newUUID : String) :
    TimelinePostStorage σ :=
  { CreatePost := GitStorage.CreatePost g newUUID
    GetPost := GitStorage.GetPost g
    GetPostTimeline := GitStorage.GetPostTimeline g
    GetPostVersion := GitStorage.GetPostVersion g
    EditPost := GitStorage.EditPost g }

/-- server.UpdatePostRequest -/
structure UpdatePostRequest where
  Body : String
  Title : String
  User : String
deriving DecidableEq, Repr

/-- server.CreatePostRequest is models.PostContent. -/
abbrev CreatePostRequest := PostContent

/-- What a handler hands to `c.JSON`, next to the status. -/
inductive Payload where
  | error (text : String)
  | message (text : String)
  | content (post : PostContent)
  | createPostResponse (PostId : String)
  | createVersionResponse (VersionId : String)
deriving DecidableEq, Repr

/-- The response written by `c.JSON(status, payload)`. -/
structure Response where
  status : Nat
  payload : Payload
deriving DecidableEq, Repr

/-- http.StatusOK -/
def StatusOK : Nat := 200
/-- http.StatusNotModified -/
def StatusNotModified : Nat := 304
/-- http.StatusBadRequest -/
def StatusBadRequest : Nat := 400
/-- http.StatusNotFound -/
def StatusNotFound : Nat := 404
/-- http.StatusInternalServerError -/
def StatusInternalServerError : Nat := 500

/-- server.Server: the two storages. -/
structure Server (σ μ : Type) where
  timelineStorage : TimelinePostStorage σ
  metadataStorage : PostMetadataStorage μ

namespace Server

variable {σ μ : Type}

/-- Server.HandleGetVersion; `postId` and `versionId` are the two path parameters. -/
def HandleGetVersion (s : Server σ μ) (postId versionId : String) (st : σ × μ) :
    Response × (σ × μ) :=
  if versionId = "" ∨ postId = "" then
    (⟨StatusBadRequest, .error "Invalid request"⟩, st)
  else
    match s.timelineStorage.GetPostVersion postId versionId st.1 with
    | .error _ => (⟨StatusInternalServerError, .error "Failed to fetch post version"⟩, st)
    | .ok postContent => (⟨StatusOK, .content postContent⟩, st)

/-- Server.HandleCreatePost; `bound` is the request `c.ShouldBindJSON` decoded, if it did, and
`date` is `time.Now().Format(time.RFC3339)`. -/
def HandleCreatePost (s : Server σ μ) (bound : Option CreatePostRequest) (date : String)
    (st : σ × μ) : Response × (σ × μ) :=
  match bound with
  | none => (⟨StatusBadRequest, .error "Invalid request payload"⟩, st)
  | some createPostRequest =>
    match s.timelineStorage.CreatePost
        { Body := createPostRequest.Body, Title := createPostRequest.Title,
          Username := createPostRequest.Username } st.1 with
    | ((postId, err), t) =>
      match err with
      | some _ => (⟨StatusInternalServerError, .error "Failed to create post"⟩, (t, st.2))
      | none =>
        match s.metadataStorage.CreatePostMetadata
            { PostID := postId, Title := createPostRequest.Title,
              Username := createPostRequest.Username, VersionsNumber := 1, Date := date }
            st.2 with
        | (some _, m) =>
          (⟨StatusInternalServerError, .error "Failed to create post metadata"⟩, (t, m))
        | (none, m) => (⟨StatusOK, .createPostResponse postId⟩, (t, m))

/-- Server.HandleEditPost; `bound` is the request `c.ShouldBindJSON` decoded, if it did,
`postID` the path parameter and `date` is `time.Now().Format(time.RFC3339)`. -/
def HandleEditPost (s : Server σ μ) (bound : Option UpdatePostRequest) (postID : String)
    (date : String) (st : σ × μ) : Response × (σ × μ) :=
  match bound with
  | none => (⟨StatusBadRequest, .error "Invalid request payload"⟩, st)
  | some updatePostRequest =>
    match s.metadataStorage.GetPostMetadata postID st.2 with
    | (_, some _) => (⟨StatusNotFound, .error "Post metadata not found"⟩, st)
    | (none, none) => (⟨StatusNotFound, .error "Post metadata not found"⟩, st)
    | (some postMetadata, none) =>
      match s.timelineStorage.EditPost postID
          { Body := updatePostRequest.Body, Title := updatePostRequest.Title,
            Username := updatePostRequest.User } st.1 with
      | ((versionId, err), t) =>
        match err with
        | some e =>
          if e.Error = "nothing changed" then
            (⟨StatusNotModified, .message "No changes detected"⟩, (t, st.2))
          else
            (⟨StatusInternalServerError, .error "Failed to edit post"⟩, (t, st.2))
        | none =>
          match s.metadataStorage.UpdatePostMetadata
              { PostID := postID, Title := updatePostRequest.Title,
                Username := updatePostRequest.User,
                VersionsNumber := postMetadata.VersionsNumber + 1, Date := date } st.2 with
          | (some _, m) =>
            (⟨StatusInternalServerError, .error "Failed to update post metadata"⟩, (t, m))
          | (none, m) => (⟨StatusOK, .createVersionResponse versionId⟩, (t, m))

end Server

/-- A backend whose every call fails with the error `e`, changing nothing. -/
def failingBackend (e : GoError) : GitRepositoryCommunitor Unit :=
  { CommitFile := fun _ _ _ _ s => (("", some e), s)
    GetFileContent := fun _ _ _ => .error e
    GetFileTimeline := fun _ _ => .error e }

/-- A metadata store kept as a list of records: create appends, update replaces the records
with that id, get returns the first record with that id or an error. -/
def listMetadataStorage : PostMetadataStorage (List PostMetadata) :=
  { CreatePostMetadata := fun post m => (none, m ++ [post])
    UpdatePostMetadata := fun post m =>
      (none, m.map fun p => if p.PostID = post.PostID then post else p)
    GetPostMetadata := fun postId m =>
      match m.find? (fun p => decide (p.PostID = postId)) with
      | some p => (some p, none)
      | none => (none, some ⟨"failed to get post metadata: record not found"⟩)
    GetAllPostsMetadata := fun m => .ok m }

/-! ## The mutex of LocalGitRepositoryCommunicator -/

/-- What a call of the communicator does that another goroutine can see: the two operations
on `l.mutex`, and the calls on `l.repository`, on the work tree and on the working file. -/
inductive Event where
  | lock
  | unlock
  | access (call : String)
deriving DecidableEq, Repr

namespace LocalGitRepositoryCommunicator

/-- The events of CommitFile in program order, on the path the call takes: the lock is the
first statement, and the deferred unlock runs last, after the deferred close of the file. -/
def eventsOfCommitFile (filename content : String) (r : Repository) : List Event :=
  [.lock, .access "repository.Worktree", .access "os.Create", .access "outputFile.Write",
    .access "workTree.Add", .access "workTree.Status"] ++
  (if ((r.writeFile filename content).Add filename).Status.length = 0 then []
   else [.access "workTree.Commit"]) ++
  [.access "outputFile.Close", .unlock]

/-- The events of GetFileContent in program order, on the path the call takes. -/
def eventsOfGetFileContent (w : World) (filename commitId : String) (r : Repository) :
    List Event :=
  [.lock, .access "repository.ResolveRevision"] ++
  (match r.ResolveRevision w commitId with
   | .error _ => []
   | .ok commitHash =>
     .access "repository.CommitObject" ::
       (match r.CommitObject commitHash with
        | .error _ => []
        | .ok commit =>
          .access "commit.File" ::
            (match Repository.File commit filename with
             | .error _ => []
             | .ok _ => [.access "file.Contents"]))) ++
  [.unlock]

/-- The events of GetFileTimeline in program order, on the path the call takes: the source
has no statement on `l.mutex` in this method. -/
def eventsOfGetFileTimeline (_filename : String) (r : Repository) : List Event :=
  .access "repository.Head" ::
    (match r.Head with
     | .error _ => []
     | .ok _ => [.access "repository.Log", .access "historyIterator.ForEach"])

end LocalGitRepositoryCommunicator

/-- Calls running in goroutines next to each other: the call that holds `l.mutex`, if any,
the events each call still has to do, and the events done so far, each with its call. -/
structure Goroutines where
  holder : Option Nat
  pending : List (List Event)
  done : List (Nat × Event)
deriving DecidableEq, Repr

namespace Goroutines

/-- The calls before any of them has run. -/
def start (calls : List (List Event)) : Goroutines :=
  { holder := none, pending := calls, done := [] }

/-- Call `i` does its next event.  `Lock` goes through only while no call holds the mutex (a
call that would block takes no step); there is no step for a call that has returned. -/
def step (g : Goroutines) (i : Nat) : Option Goroutines :=
  match g.pending[i]? with
  | none => none
  | some [] => none
  | some (e :: rest) =>
    match e with
    | .lock =>
      if g.holder = none then
        some { holder := some i, pending := g.pending.set i rest, done := g.done ++ [(i, e)] }
      else none
    | .unlock =>
      some { holder := none, pending := g.pending.set i rest, done := g.done ++ [(i, e)] }
    | .access _ =>
      some { holder := g.holder, pending := g.pending.set i rest, done := g.done ++ [(i, e)] }

/-- The calls take steps in the order of `schedule`; `none` when a step is not possible. -/
def run : List Nat → Goroutines → Option Goroutines
  | [], g => some g
  | i :: schedule, g =>
    match g.step i with
    | none => none
    | some g' => run schedule g'

end Goroutines

/-- The accesses of a trace made by a call while another call holds the mutex; `holder` is
the call holding it when the trace starts. -/
def accessesUnderForeignLock : List (Nat × Event) → Option Nat → List (Nat × Event)
  | [], _ => []
  | (i, .lock) :: rest, _ => accessesUnderForeignLock rest (some i)
  | (_, .unlock) :: rest, _ => accessesUnderForeignLock rest none
  | (i, .access call) :: rest, holder =>
    if holder ≠ none ∧ holder ≠ some i then
      (i, .access call) :: accessesUnderForeignLock rest holder
    else accessesUnderForeignLock rest holder

/-- The call that holds the mutex after a trace; `holder` is the call holding it when the
trace starts. -/
def holderAfter : List (Nat × Event) → Option Nat → Option Nat
  | [], holder => holder
  | (i, .lock) :: rest, _ => holderAfter rest (some i)
  | (_, .unlock) :: rest, _ => holderAfter rest none
  | (_, .access _) :: rest, holder => holderAfter rest holder

/-- The events of a call that takes the mutex first, gives it back last, and in between
only accesses the repository. -/
def Bracketed (events : List Event) : Prop :=
  ∃ body : List Event,
    events = .lock :: (body ++ [.unlock]) ∧ ∀ e ∈ body, ∃ call, e = Event.access call

/-- What is left of a bracketed call once it holds the mutex. -/
def Inside (events : List Event) : Prop :=
  ∃ body : List Event,
    events = body ++ [.unlock] ∧ ∀ e ∈ body, ∃ call, e = Event.access call

/-- The state of goroutines that run bracketed calls only: the mutex is held by the call
the trace says, no access was made under the lock of another call, the call that holds the
mutex is inside its bracket, and every other call has not started or has returned. -/
structure Goroutines.Serialized (g : Goroutines) : Prop where
  holder_eq : holderAfter g.done none = g.holder
  no_foreign : accessesUnderForeignLock g.done none = []
  pending_ok : ∀ (j : Nat) (events : List Event), g.pending[j]? = some events →
    (g.holder = some j ∧ Inside events) ∨
      (g.holder ≠ some j ∧ (events = [] ∨ Bracketed events))

/-- A backend that writes down what it is asked: CommitFile appends the path it received to
the state and answers with the path as commit id; the two reads answer with the path they
received, as content and as the id of the only commit. -/
def echoBackend : GitRepositoryCommunitor (List String) :=
  { CommitFile := fun filename _ _ _ s => ((filename, none), s ++ [filename])
    GetFileContent := fun filename commitId _ =>
      .ok (filename, { Message := "", Date := 0, Author := "", CommitId := commitId })
    GetFileTimeline := fun filename _ =>
      .ok { Commits := [{ Message := "", Date := 0, Author := "", CommitId := filename }] } }

/-- The revisions of a repository whose only reference besides HEAD is the branch `master`,
pointing at the commit named `tip`. -/
def masterAt (tip : String) : String → Option String :=
  fun rev => if rev = "master" then some tip else none

/-! # Properties -/

/-! ## Files -/

theorem Files.get_put_self (path content : String) (fs : Files) :
    (fs.put path content).get path = some content := by
  induction fs with
  | nil => simp [Files.put, Files.get]
  | cons e rest ih =>
    obtain ⟨p, c⟩ := e
    by_cases h : p = path
    · simp [Files.put, Files.get, h]
    · simp [Files.put, Files.get, h, ih]

theorem Files.get_put_ne (path content q : String) (fs : Files) (h : q ≠ path) :
    (fs.put path content).get q = fs.get q := by
  induction fs with
  | nil => simp [Files.put, Files.get, Ne.symm h]
  | cons e rest ih =>
    obtain ⟨p, c⟩ := e
    by_cases hp : p = path
    · subst hp
      simp [Files.put, Files.get, Ne.symm h]
    · by_cases hq : p = q
      · subst hq
        simp [Files.put, Files.get, hp]
      · simp [Files.put, Files.get, hp, hq, ih]

theorem Files.put_of_get (path content : String) (fs : Files)
    (h : fs.get path = some content) : fs.put path content = fs := by
  induction fs with
  | nil => simp [Files.get] at h
  | cons e rest ih =>
    obtain ⟨p, c⟩ := e
    by_cases hp : p = path
    · simp [Files.get, hp] at h
      simp [Files.put, hp, h]
    · simp [Files.get, hp] at h
      simp [Files.put, hp, ih h]

theorem Files.get_of_not_mem_paths (q : String) (fs : Files) (h : q ∉ fs.paths) :
    fs.get q = none := by
  induction fs with
  | nil => rfl
  | cons e rest ih =>
    obtain ⟨p, c⟩ := e
    simp [Files.paths] at h
    have hp : p ≠ q := fun hpq => h.1 hpq.symm
    simp only [Files.get, hp, if_false]
    apply ih
    simpa [Files.paths] using h.2

namespace Repository

theorem status_eq_nil_iff (r : Repository) :
    r.Status = [] ↔
      ∀ p, r.headTree.get p = r.index.get p ∧ r.index.get p = r.worktree.get p := by
  constructor
  · intro h p
    by_cases hp : p ∈ r.headTree.paths ++ r.index.paths ++ r.worktree.paths
    · have := List.filter_eq_nil_iff.mp h p hp
      simpa using this
    · simp only [List.mem_append, not_or] at hp
      rw [Files.get_of_not_mem_paths p _ hp.1.1, Files.get_of_not_mem_paths p _ hp.1.2,
        Files.get_of_not_mem_paths p _ hp.2]
      exact ⟨rfl, rfl⟩
  · intro h
    apply List.filter_eq_nil_iff.mpr
    intro p _
    simp [h p]

end Repository

namespace LocalGitRepositoryCommunicator

/-- The repository after the write and the staging of CommitFile. -/
theorem staged_eq (filename content : String) (r : Repository) :
    (r.writeFile filename content).Add filename =
      { r with worktree := r.worktree.put filename content,
               index := r.index.put filename content } := by
  simp [Repository.writeFile, Repository.Add, Files.get_put_self]

/-- CommitFile in one step: either the status is empty after staging and nothing is
committed, or a commit of the staged tree becomes the tip. -/
theorem CommitFile_eq (w : World) (filename commitMessage author content : String)
    (r : Repository) :
    CommitFile w filename commitMessage author content r =
      if ({ r with worktree := r.worktree.put filename content,
                   index := r.index.put filename content } : Repository).Status = [] then
        (("", none), { r with worktree := r.worktree.put filename content,
                              index := r.index.put filename content })
      else
        ((w.hash, none),
          { commits := { Hash := w.hash, Message := commitMessage, AuthorName := author,
                         AuthorWhen := w.now, Tree := r.index.put filename content }
                       :: r.commits,
            index := r.index.put filename content,
            worktree := r.worktree.put filename content }) := by
  unfold CommitFile
  simp only [staged_eq, List.length_eq_zero, Repository.Commit]

end LocalGitRepositoryCommunicator

/-- What a successful CreatePost on the local repository did: the status was not empty, the
name of the commit is not empty, the id is the fresh UUID and a commit of the staged tree
is the new tip. -/
theorem createPost_ok (w : World) (newUUID : String) (post : PostContent) (r r' : Repository)
    (X : String) (h : GitStorage.CreatePost (Local w) newUUID post r = ((X, none), r')) :
    X = newUUID ∧ w.hash ≠ "" ∧
      r' = { commits := { Hash := w.hash, Message := post.Title, AuthorName := post.Username,
                          AuthorWhen := w.now,
                          Tree := r.index.put (newUUID ++ ".json") post.Body } :: r.commits,
             index := r.index.put (newUUID ++ ".json") post.Body,
             worktree := r.worktree.put (newUUID ++ ".json") post.Body } := by
  simp only [GitStorage.CreatePost, Local, LocalGitRepositoryCommunicator.CommitFile_eq] at h
  split_ifs at h with h1 h2 <;> simp_all
  obtain ⟨rfl, rfl⟩ := h
  rfl

/-- What a successful EditPost on the local repository did. -/
theorem editPost_ok (w : World) (postId : String) (post : PostContent) (r r' : Repository)
    (V : String) (h : GitStorage.EditPost (Local w) postId post r = ((V, none), r')) :
    V = w.hash ∧ w.hash ≠ "" ∧
      r' = { commits := { Hash := w.hash, Message := post.Title, AuthorName := post.Username,
                          AuthorWhen := w.now,
                          Tree := r.index.put (postId ++ ".json") post.Body } :: r.commits,
             index := r.index.put (postId ++ ".json") post.Body,
             worktree := r.worktree.put (postId ++ ".json") post.Body } := by
  simp only [GitStorage.EditPost, Local, LocalGitRepositoryCommunicator.CommitFile_eq] at h
  split_ifs at h with h1 h2 <;> simp_all
  obtain ⟨rfl, rfl⟩ := h
  rfl

/-- Reading the tip of a repository that has a commit. -/
theorem getFileContent_head (w : World) (filename : String) (c : CommitObject)
    (cs : List CommitObject) (idx wt : Files) :
    LocalGitRepositoryCommunicator.GetFileContent w filename "HEAD"
        { commits := c :: cs, index := idx, worktree := wt } =
      match c.Tree.get filename with
      | some content =>
        .ok (content, { Message := c.Message, Author := c.AuthorName, Date := c.AuthorWhen,
                        CommitId := c.Hash })
      | none => .error (Errorf "failed to get file: " ⟨"file not found"⟩) := by
  simp only [LocalGitRepositoryCommunicator.GetFileContent, Repository.ResolveRevision,
    Repository.CommitObject, Repository.File, if_true, List.find?_cons, decide_True]
  cases c.Tree.get filename <;> rfl

/-- C1. Create/read round trip: in any repository state, for any content (any title, username
and body, the empty body included), if CreatePost succeeds and returns id X, then GetPost(X)
on the resulting state succeeds and returns exactly the body given. -/
theorem createPost_getPost_roundtrip (w w' : World) (newUUID : String) (post : PostContent)
    (r r' : Repository) (X : String)
    (h : GitStorage.CreatePost (Local w) newUUID post r = ((X, none), r')) :
    GitStorage.GetPost (Local w') X r' = .ok post.Body := by
  obtain ⟨hX, _, hr⟩ := createPost_ok w newUUID post r r' X h
  subst hX hr
  simp [GitStorage.GetPost, Local, getFileContent_head, Files.get_put_self]

/-- C1 at a concrete input: an empty body, created in an empty repository. -/
theorem createPost_getPost_roundtrip_witness :
    GitStorage.CreatePost (Local ⟨7, "c0ffee", fun _ => none⟩) "id-1" ⟨"", "title", "ann"⟩ Repository.init =
        (("id-1", none),
          { commits := [⟨"c0ffee", "title", "ann", 7, [("id-1.json", "")]⟩],
            index := [("id-1.json", "")], worktree := [("id-1.json", "")] }) ∧
      GitStorage.GetPost (Local ⟨8, "unused", fun _ => none⟩) "id-1"
          { commits := [⟨"c0ffee", "title", "ann", 7, [("id-1.json", "")]⟩],
            index := [("id-1.json", "")], worktree := [("id-1.json", "")] } =
        .ok (PostContent.Body ⟨"", "title", "ann"⟩) :=
  ⟨by decide, createPost_getPost_roundtrip ⟨7, "c0ffee", fun _ => none⟩ ⟨8, "unused", fun _ => none⟩ "id-1"
    ⟨"", "title", "ann"⟩ Repository.init _ "id-1" (by decide)⟩

theorem foldl_appendCommit (l : List CommitObject) (acc : List Commit) :
    l.foldl LocalGitRepositoryCommunicator.appendCommit acc =
      acc ++ l.map fun c =>
        { Message := c.Message, CommitId := c.Hash, Author := c.AuthorName,
          Date := c.AuthorWhen } := by
  induction l generalizing acc with
  | nil => simp
  | cons c rest ih => simp [List.foldl, ih, LocalGitRepositoryCommunicator.appendCommit]

theorem foldl_appendVersion (l : List Commit) (acc : List PostVersionMetadata) :
    l.foldl GitStorage.appendVersion acc =
      acc ++ l.map fun c =>
        { VersionId := c.CommitId, Title := c.Message, Date := c.Date, User := c.Author } := by
  induction l generalizing acc with
  | nil => simp
  | cons c rest ih => simp [List.foldl, ih, GitStorage.appendVersion]

/-- GetPostTimeline on the local repository: the file log, one summary per commit. -/
theorem getPostTimeline_local (w : World) (id : String) (r : Repository) :
    GitStorage.GetPostTimeline (Local w) id r =
      match r.commits with
      | [] =>
        .error (Errorf "failed to get target: "
          (Errorf "failed to get repository head: " ⟨"reference not found"⟩))
      | c :: cs => .ok ((Repository.Log (id ++ ".json") (c :: cs)).map summaryOf) := by
  obtain ⟨commits, idx, wt⟩ := r
  cases commits with
  | nil =>
    simp [GitStorage.GetPostTimeline, Local, LocalGitRepositoryCommunicator.GetFileTimeline,
      Repository.Head]
  | cons c cs =>
    simp [GitStorage.GetPostTimeline, Local, LocalGitRepositoryCommunicator.GetFileTimeline,
      Repository.Head, foldl_appendCommit, foldl_appendVersion, List.map_map,
      Function.comp_def, summaryOf]

/-- GetPost on the local repository succeeds exactly when the tip's tree has the file. -/
theorem getPost_local_ok_iff (w : World) (id B : String) (r : Repository) :
    GitStorage.GetPost (Local w) id r = .ok B ↔ r.headTree.get (id ++ ".json") = some B := by
  obtain ⟨commits, idx, wt⟩ := r
  cases commits with
  | nil =>
    simp [GitStorage.GetPost, Local, LocalGitRepositoryCommunicator.GetFileContent,
      Repository.ResolveRevision, Repository.headTree, Repository.tipTree, Files.get]
  | cons c cs =>
    simp only [GitStorage.GetPost, Local, getFileContent_head, Repository.headTree,
      Repository.tipTree]
    cases c.Tree.get (id ++ ".json") <;> simp

theorem log_subset (filename : String) (cs : List CommitObject) :
    ∀ c ∈ Repository.Log filename cs, c ∈ cs := by
  induction cs with
  | nil => simp [Repository.Log]
  | cons d rest ih =>
    intro c hc
    simp only [Repository.Log] at hc
    split_ifs at hc with h
    · rcases List.mem_cons.mp hc with h1 | h1
      · exact h1 ▸ List.mem_cons_self _ _
      · exact List.mem_cons_of_mem _ (ih c h1)
    · exact List.mem_cons_of_mem _ (ih c hc)

theorem log_of_neverCommitted (filename : String) (cs : List CommitObject)
    (h : ∀ c ∈ cs, c.Tree.get filename = none) : Repository.Log filename cs = [] := by
  induction cs with
  | nil => simp [Repository.Log]
  | cons d rest ih =>
    have hd : d.Tree.get filename = none := h d (List.mem_cons_self _ _)
    have hrest : ∀ c ∈ rest, c.Tree.get filename = none :=
      fun c hc => h c (List.mem_cons_of_mem _ hc)
    have hp : Files.get filename (Repository.tipTree rest) = none := by
      cases rest with
      | nil => rfl
      | cons p _ => exact hrest p (List.mem_cons_self _ _)
    simp only [Repository.Log, hd, hp]
    simpa using ih hrest

/-- C2. No-op edit: in a repository whose status is empty, for a document X whose tip body
is B, and for every title and username, EditPost(X, content with body B) returns the
"nothing changed" outcome with no version id, creates no commit and leaves the repository,
hence the tip and the timeline of X, as they were. -/
theorem editPost_same_body_noChange (w w' : World) (r : Repository) (X B title user : String)
    (hclean : r.Status = [])
    (hB : GitStorage.GetPost (Local w') X r = .ok B) :
    GitStorage.EditPost (Local w) X ⟨B, title, user⟩ r =
        (("", some ⟨"nothing changed"⟩), r) ∧
      (GitStorage.EditPost (Local w) X ⟨B, title, user⟩ r).2.commits = r.commits ∧
      (GitStorage.EditPost (Local w) X ⟨B, title, user⟩ r).2.ResolveRevision w' "HEAD" =
        r.ResolveRevision w' "HEAD" ∧
      GitStorage.GetPostTimeline (Local w') X
          (GitStorage.EditPost (Local w) X ⟨B, title, user⟩ r).2 =
        GitStorage.GetPostTimeline (Local w') X r := by
  have hhead := (getPost_local_ok_iff w' X B r).mp hB
  have hall := (Repository.status_eq_nil_iff r).mp hclean
  have hidx : r.index.get (X ++ ".json") = some B := by rw [← (hall _).1]; exact hhead
  have hwt : r.worktree.get (X ++ ".json") = some B := by rw [← (hall _).2]; exact hidx
  have key : GitStorage.EditPost (Local w) X ⟨B, title, user⟩ r =
      (("", some ⟨"nothing changed"⟩), r) := by
    simp only [GitStorage.EditPost, Local, LocalGitRepositoryCommunicator.CommitFile_eq,
      Files.put_of_get _ _ _ hidx, Files.put_of_get _ _ _ hwt]
    simp [hclean]
  rw [key]
  exact ⟨rfl, rfl, rfl, rfl⟩

/-- C2 at a concrete input: a document created with body "v1" and edited to "v1" again. -/
theorem editPost_same_body_noChange_witness :
    (Repository.Status
        { commits := [⟨"c0ffee", "title", "ann", 7, [("id-1.json", "v1")]⟩],
          index := [("id-1.json", "v1")], worktree := [("id-1.json", "v1")] } = [] ∧
      GitStorage.GetPost (Local ⟨8, "unused", fun _ => none⟩) "id-1"
        { commits := [⟨"c0ffee", "title", "ann", 7, [("id-1.json", "v1")]⟩],
          index := [("id-1.json", "v1")], worktree := [("id-1.json", "v1")] } = .ok "v1") ∧
      GitStorage.EditPost (Local ⟨9, "decade", fun _ => none⟩) "id-1" ⟨"v1", "other title", "bob"⟩
        { commits := [⟨"c0ffee", "title", "ann", 7, [("id-1.json", "v1")]⟩],
          index := [("id-1.json", "v1")], worktree := [("id-1.json", "v1")] } =
        (("", some ⟨"nothing changed"⟩),
          { commits := [⟨"c0ffee", "title", "ann", 7, [("id-1.json", "v1")]⟩],
            index := [("id-1.json", "v1")], worktree := [("id-1.json", "v1")] }) :=
  ⟨⟨by decide, by rfl⟩,
    (editPost_same_body_noChange ⟨9, "decade", fun _ => none⟩ ⟨8, "unused", fun _ => none⟩ _ "id-1" "v1" "other title" "bob"
      (by decide) (by rfl)).1⟩

/-- The status is not empty once a file is staged with a content the tip does not have. -/
theorem status_ne_nil_of_staged (r : Repository) (filename content : String)
    (h : r.headTree.get filename ≠ some content) :
    ({ r with worktree := r.worktree.put filename content,
              index := r.index.put filename content } : Repository).Status ≠ [] := by
  intro hs
  have := ((Repository.status_eq_nil_iff _).mp hs filename).1
  simp only [Files.get_put_self] at this
  exact h this

/-- EditPost on the local repository when the body differs from the tip's. -/
theorem editPost_local_of_ne (w : World) (postId : String) (post : PostContent)
    (r : Repository) (h : r.headTree.get (postId ++ ".json") ≠ some post.Body)
    (hh : w.hash ≠ "") :
    GitStorage.EditPost (Local w) postId post r =
      ((w.hash, none),
        { commits := { Hash := w.hash, Message := post.Title, AuthorName := post.Username,
                       AuthorWhen := w.now,
                       Tree := r.index.put (postId ++ ".json") post.Body } :: r.commits,
          index := r.index.put (postId ++ ".json") post.Body,
          worktree := r.worktree.put (postId ++ ".json") post.Body }) := by
  have hs := status_ne_nil_of_staged r (postId ++ ".json") post.Body h
  simp only [GitStorage.EditPost, Local, LocalGitRepositoryCommunicator.CommitFile_eq]
  rw [if_neg hs]
  simp [hh]

/-- The file log after a commit that changed the file: the new commit, then the old log. -/
theorem log_cons_of_ne (filename : String) (c : CommitObject) (cs : List CommitObject)
    (h : c.Tree.get filename ≠ (Repository.tipTree cs).get filename) :
    Repository.Log filename (c :: cs) = c :: Repository.Log filename cs := by
  simp only [Repository.Log]
  rw [if_pos h]

/-- C3. Content-changing edit prepends exactly one version: for a document X whose tip body
is B and a new body different from B, when go-git names the new commit with a non-empty
name that no stored commit has, EditPost succeeds with that name V as version id, V is not
in the previous timeline, and afterwards GetPostTimeline(X) is the entry for V (title and
user taken from the edit) followed by the previous timeline unchanged, newest first. -/
theorem editPost_new_body_prepends (w w' : World) (r : Repository) (X B : String)
    (post : PostContent)
    (hB : GitStorage.GetPost (Local w') X r = .ok B) (hne : post.Body ≠ B)
    (hh : w.hash ≠ "") (hfresh : w.hash ∉ r.hashes) :
    ∃ old : List PostVersionMetadata,
      GitStorage.GetPostTimeline (Local w') X r = .ok old ∧
      (GitStorage.EditPost (Local w) X post r).1 = (w.hash, none) ∧
      w.hash ∉ old.map (fun v => v.VersionId) ∧
      GitStorage.GetPostTimeline (Local w') X (GitStorage.EditPost (Local w) X post r).2 =
        .ok ({ VersionId := w.hash, Title := post.Title, Date := w.now,
               User := post.Username } :: old) := by
  have hhead := (getPost_local_ok_iff w' X B r).mp hB
  have hdiff : r.headTree.get (X ++ ".json") ≠ some post.Body := by
    rw [hhead]; intro h; exact hne (Option.some.inj h).symm
  rw [editPost_local_of_ne w X post r hdiff hh]
  obtain ⟨commits, idx, wt⟩ := r
  cases commits with
  | nil => simp [Repository.headTree, Repository.tipTree, Files.get] at hhead
  | cons c cs =>
    refine ⟨(Repository.Log (X ++ ".json") (c :: cs)).map summaryOf, ?_, rfl, ?_, ?_⟩
    · rw [getPostTimeline_local]
    · intro hmem
      apply hfresh
      simp only [List.map_map, List.mem_map, Function.comp_apply, summaryOf] at hmem
      obtain ⟨d, hd, hdh⟩ := hmem
      simp only [Repository.hashes, List.mem_map]
      exact ⟨d, log_subset _ _ d hd, hdh⟩
    · rw [getPostTimeline_local]
      simp only
      rw [log_cons_of_ne]
      · simp [summaryOf]
      · simp only [Files.get_put_self]
        simp only [Repository.headTree] at hhead
        rw [hhead]
        intro h; exact hne (Option.some.inj h)

/-- C3 at a concrete input: "v1" edited to "v2". -/
theorem editPost_new_body_prepends_witness :
    ∃ old : List PostVersionMetadata,
      GitStorage.GetPostTimeline (Local ⟨8, "unused", fun _ => none⟩) "id-1"
          { commits := [⟨"c0ffee", "title", "ann", 7, [("id-1.json", "v1")]⟩],
            index := [("id-1.json", "v1")], worktree := [("id-1.json", "v1")] } = .ok old ∧
      (GitStorage.EditPost (Local ⟨9, "decade", fun _ => none⟩) "id-1" ⟨"v2", "second", "bob"⟩
          { commits := [⟨"c0ffee", "title", "ann", 7, [("id-1.json", "v1")]⟩],
            index := [("id-1.json", "v1")], worktree := [("id-1.json", "v1")] }).1 =
        ("decade", none) ∧
      "decade" ∉ old.map (fun v => v.VersionId) ∧
      GitStorage.GetPostTimeline (Local ⟨8, "unused", fun _ => none⟩) "id-1"
          (GitStorage.EditPost (Local ⟨9, "decade", fun _ => none⟩) "id-1" ⟨"v2", "second", "bob"⟩
            { commits := [⟨"c0ffee", "title", "ann", 7, [("id-1.json", "v1")]⟩],
              index := [("id-1.json", "v1")], worktree := [("id-1.json", "v1")] }).2 =
        .ok ({ VersionId := "decade", Title := "second", Date := 9, User := "bob" } :: old) :=
  editPost_new_body_prepends ⟨9, "decade", fun _ => none⟩ ⟨8, "unused", fun _ => none⟩
    { commits := [⟨"c0ffee", "title", "ann", 7, [("id-1.json", "v1")]⟩],
      index := [("id-1.json", "v1")], worktree := [("id-1.json", "v1")] }
    "id-1" "v1" ⟨"v2", "second", "bob"⟩ (by rfl) (by decide) (by decide) (by decide)

theorem tipTree_get_of_neverCommitted (filename : String) (cs : List CommitObject)
    (h : ∀ c ∈ cs, c.Tree.get filename = none) :
    (Repository.tipTree cs).get filename = none := by
  cases cs with
  | nil => rfl
  | cons c _ => exact h c (List.mem_cons_self _ _)

/-- C5. Timeline right after creation: when CreatePost succeeds with id X, and the fresh
UUID names a file that no commit of the repository has, GetPostTimeline(X) has exactly one
entry, whose version id is the commit id that HEAD resolves to, with the title and the
username given to CreatePost. -/
theorem createPost_timeline_single (w w' : World) (newUUID : String) (post : PostContent)
    (r r' : Repository) (X : String)
    (h : GitStorage.CreatePost (Local w) newUUID post r = ((X, none), r'))
    (hnew : r.NeverCommitted (newUUID ++ ".json")) :
    ∃ V : String,
      r'.ResolveRevision w' "HEAD" = .ok V ∧
      GitStorage.GetPostTimeline (Local w') X r' =
        .ok [{ VersionId := V, Title := post.Title, Date := w.now, User := post.Username }] := by
  obtain ⟨hX, _, hr⟩ := createPost_ok w newUUID post r r' X h
  subst hX hr
  refine ⟨w.hash, by simp [Repository.ResolveRevision], ?_⟩
  rw [getPostTimeline_local]
  simp only
  rw [log_cons_of_ne, log_of_neverCommitted _ _ hnew]
  · simp [summaryOf]
  · rw [tipTree_get_of_neverCommitted _ _ hnew, Files.get_put_self]
    simp

/-- C5 at a concrete input: a post created in a repository that holds another document. -/
theorem createPost_timeline_single_witness :
    ∃ V : String,
      Repository.ResolveRevision
          { commits := [⟨"decade", "t2", "bob", 9, [("id-1.json", "v1"), ("id-2.json", "x")]⟩,
                        ⟨"c0ffee", "title", "ann", 7, [("id-1.json", "v1")]⟩],
            index := [("id-1.json", "v1"), ("id-2.json", "x")],
            worktree := [("id-1.json", "v1"), ("id-2.json", "x")] }
          ⟨8, "unused", fun _ => none⟩ "HEAD" = .ok V ∧
      GitStorage.GetPostTimeline (Local ⟨8, "unused", fun _ => none⟩) "id-2"
          { commits := [⟨"decade", "t2", "bob", 9, [("id-1.json", "v1"), ("id-2.json", "x")]⟩,
                        ⟨"c0ffee", "title", "ann", 7, [("id-1.json", "v1")]⟩],
            index := [("id-1.json", "v1"), ("id-2.json", "x")],
            worktree := [("id-1.json", "v1"), ("id-2.json", "x")] } =
        .ok [{ VersionId := V, Title := "t2", Date := 9, User := "bob" }] :=
  createPost_timeline_single ⟨9, "decade", fun _ => none⟩ ⟨8, "unused", fun _ => none⟩
    "id-2" ⟨"x", "t2", "bob"⟩
    { commits := [⟨"c0ffee", "title", "ann", 7, [("id-1.json", "v1")]⟩],
      index := [("id-1.json", "v1")], worktree := [("id-1.json", "v1")] }
    _ "id-2" (by decide) (by simp [Repository.NeverCommitted, Files.get])

/-- A call either leaves the commits as they were or puts one commit, with the name the
environment gave, in front of them. -/
theorem commitFile_commits (w : World) (filename commitMessage author content : String)
    (r : Repository) :
    (LocalGitRepositoryCommunicator.CommitFile w filename commitMessage author content r).2.commits
        = r.commits ∨
      ∃ c : CommitObject, c.Hash = w.hash ∧
        (LocalGitRepositoryCommunicator.CommitFile w filename commitMessage author content
          r).2.commits = c :: r.commits := by
  rw [LocalGitRepositoryCommunicator.CommitFile_eq]
  split_ifs
  · exact Or.inl rfl
  · exact Or.inr ⟨_, rfl, rfl⟩

theorem createPost_snd (w : World) (newUUID : String) (post : PostContent) (r : Repository) :
    (GitStorage.CreatePost (Local w) newUUID post r).2 =
      (LocalGitRepositoryCommunicator.CommitFile w (newUUID ++ ".json") post.Title
        post.Username post.Body r).2 := by
  simp only [GitStorage.CreatePost, Local]
  generalize LocalGitRepositoryCommunicator.CommitFile w (newUUID ++ ".json") post.Title
    post.Username post.Body r = res
  obtain ⟨⟨commitId, err⟩, s'⟩ := res
  cases err with
  | some e => rfl
  | none => simp only []; split_ifs <;> rfl

theorem editPost_snd (w : World) (postId : String) (post : PostContent) (r : Repository) :
    (GitStorage.EditPost (Local w) postId post r).2 =
      (LocalGitRepositoryCommunicator.CommitFile w (postId ++ ".json") post.Title
        post.Username post.Body r).2 := by
  simp only [GitStorage.EditPost, Local]
  generalize LocalGitRepositoryCommunicator.CommitFile w (postId ++ ".json") post.Title
    post.Username post.Body r = res
  obtain ⟨⟨commitId, err⟩, s'⟩ := res
  cases err with
  | some e => rfl
  | none => simp only []; split_ifs <;> rfl

theorem op_call_commits (op : Op) (r : Repository) :
    (op.call r).2.commits = r.commits ∨
      ∃ c : CommitObject, c.Hash = op.world.hash ∧ (op.call r).2.commits = c :: r.commits := by
  cases op with
  | create w newUUID post =>
    simp only [Op.call, Op.world, createPost_snd]
    exact commitFile_commits _ _ _ _ _ _
  | edit w postId post =>
    simp only [Op.call, Op.world, editPost_snd]
    exact commitFile_commits _ _ _ _ _ _

/-- A stored commit stays the one its name resolves to through any sequence of calls in
which no new commit is given the name of a stored one. -/
theorem find_runOps (V : String) (c0 : CommitObject) (ops : List Op) :
    ∀ r : Repository, r.commits.find? (fun c => decide (c.Hash = V)) = some c0 →
      CollisionFree ops r →
      (runOps ops r).commits.find? (fun c => decide (c.Hash = V)) = some c0 := by
  induction ops with
  | nil => intro r h _; exact h
  | cons op ops ih =>
    intro r h hfree
    obtain ⟨hnot, hrest⟩ := hfree
    apply ih _ _ hrest
    rcases op_call_commits op r with heq | ⟨c, hc, heq⟩
    · rw [heq]; exact h
    · rw [heq, List.find?_cons]
      have hmem : V ∈ r.hashes := by
        have h1 := List.mem_of_find?_eq_some h
        have h2 := List.find?_some h
        simp only [decide_eq_true_eq] at h2
        simp only [Repository.hashes, List.mem_map]
        exact ⟨c0, h1, h2⟩
      have hneq : ¬ c.Hash = V := by
        intro hcv
        apply hnot
        rw [← hc, hcv]
        exact hmem
      simp [hneq, h]

/-- GetPostVersion on the local repository, for a version id that is the full name of a
stored commit: the file is read from that commit, whatever else the environment resolves. -/
theorem getPostVersion_local (w : World) (id V : String) (r : Repository) (c : CommitObject)
    (hV : V ≠ "HEAD") (hf : r.commits.find? (fun c => decide (c.Hash = V)) = some c) :
    GitStorage.GetPostVersion (Local w) id V r =
      match c.Tree.get (id ++ ".json") with
      | none =>
        .error (Errorf "failed to get target: "
          (Errorf "failed to get file: " ⟨"file not found"⟩))
      | some content =>
        .ok { Title := c.Message, Body := content, Username := c.AuthorName } := by
  have hcV : c.Hash = V := by simpa using List.find?_some hf
  simp only [GitStorage.GetPostVersion, Local, LocalGitRepositoryCommunicator.GetFileContent,
    Repository.ResolveRevision, if_neg hV, Repository.CommitObject, hf, hcV, Repository.File]
  cases c.Tree.get (id ++ ".json") <;> rfl

/-- C4. Versions are immutable: if a CreatePost or EditPost call on document X with body B
succeeded and its commit was named V (the tip right after the call; EditPost returns V,
CreatePost returns X), then after any further sequence of CreatePost and EditPost calls,
on X or on other documents, in which no new commit is given the name of a stored one,
GetPostVersion(X, V) succeeds and returns body B with the title and the username given to
the call that minted V. -/
theorem version_immutable (op : Op) (r : Repository) (hok : (op.call r).1.2 = none)
    (hV : op.world.hash ≠ "HEAD") (ops : List Op)
    (hfree : CollisionFree ops (op.call r).2) (w' : World) :
    (op.call r).1.1 = op.answer ∧
    (op.call r).2.ResolveRevision w' "HEAD" = .ok op.world.hash ∧
    GitStorage.GetPostVersion (Local w') op.docId op.world.hash (runOps ops (op.call r).2) =
      .ok op.content := by
  have hpair : op.call r = (((op.call r).1.1, none), (op.call r).2) := by
    rw [← hok]
  have hstate : (op.call r).1.1 = op.answer ∧
      (op.call r).2 =
        { commits := { Hash := op.world.hash, Message := op.content.Title,
                       AuthorName := op.content.Username, AuthorWhen := op.world.now,
                       Tree := r.index.put (op.docId ++ ".json") op.content.Body }
                     :: r.commits,
          index := r.index.put (op.docId ++ ".json") op.content.Body,
          worktree := r.worktree.put (op.docId ++ ".json") op.content.Body } := by
    cases op with
    | create w newUUID post =>
      obtain ⟨h1, _, h3⟩ := createPost_ok w newUUID post r _ _ hpair
      exact ⟨h1, h3⟩
    | edit w postId post =>
      obtain ⟨h1, _, h3⟩ := editPost_ok w postId post r _ _ hpair
      exact ⟨h1, h3⟩
  obtain ⟨hret, hst⟩ := hstate
  refine ⟨hret, ?_, ?_⟩
  · rw [hst]; simp [Repository.ResolveRevision]
  · have hfind : (op.call r).2.commits.find? (fun c => decide (c.Hash = op.world.hash)) =
        some { Hash := op.world.hash, Message := op.content.Title,
               AuthorName := op.content.Username, AuthorWhen := op.world.now,
               Tree := r.index.put (op.docId ++ ".json") op.content.Body } := by
      rw [hst]; simp
    rw [getPostVersion_local w' _ _ _ _ hV (find_runOps _ _ ops _ hfind hfree)]
    simp [Files.get_put_self]

/-- C4 on the scenario of the specification: "v1" is created, then edited to "v2"; the
first version still reads "v1" and the second reads "v2". -/
theorem version_immutable_witness :
    GitStorage.GetPostVersion (Local ⟨8, "unused", fun _ => none⟩) "id-1" "c0ffee"
        (runOps [Op.edit ⟨9, "decade", fun _ => none⟩ "id-1" ⟨"v2", "second", "bob"⟩]
          ((Op.create ⟨7, "c0ffee", fun _ => none⟩ "id-1" ⟨"v1", "title", "ann"⟩).call Repository.init).2) =
      .ok ⟨"v1", "title", "ann"⟩ ∧
    GitStorage.GetPostVersion (Local ⟨8, "unused", fun _ => none⟩) "id-1" "decade"
        (runOps []
          ((Op.edit ⟨9, "decade", fun _ => none⟩ "id-1" ⟨"v2", "second", "bob"⟩).call
            ((Op.create ⟨7, "c0ffee", fun _ => none⟩ "id-1" ⟨"v1", "title", "ann"⟩).call
              Repository.init).2).2) =
      .ok ⟨"v2", "second", "bob"⟩ :=
  ⟨(version_immutable (Op.create ⟨7, "c0ffee", fun _ => none⟩ "id-1" ⟨"v1", "title", "ann"⟩) Repository.init
      (by decide) (by decide) [Op.edit ⟨9, "decade", fun _ => none⟩ "id-1" ⟨"v2", "second", "bob"⟩]
      ⟨by decide, trivial⟩ ⟨8, "unused", fun _ => none⟩).2.2,
   (version_immutable (Op.edit ⟨9, "decade", fun _ => none⟩ "id-1" ⟨"v2", "second", "bob"⟩)
      ((Op.create ⟨7, "c0ffee", fun _ => none⟩ "id-1" ⟨"v1", "title", "ann"⟩).call Repository.init).2
      (by decide) (by decide) [] trivial ⟨8, "unused", fun _ => none⟩).2.2⟩

/-! ## The empty status is an invariant of the local repository -/

theorem status_init : Repository.init.Status = [] := by decide

theorem status_commitFile (w : World) (filename commitMessage author content : String)
    (r : Repository) (h : r.Status = []) :
    (LocalGitRepositoryCommunicator.CommitFile w filename commitMessage author content
      r).2.Status = [] := by
  rw [LocalGitRepositoryCommunicator.CommitFile_eq]
  split_ifs with hs
  · exact hs
  · rw [Repository.status_eq_nil_iff]
    intro p
    refine ⟨rfl, ?_⟩
    have hp := ((Repository.status_eq_nil_iff r).mp h p).2
    by_cases hpf : p = filename
    · subst hpf; simp [Files.get_put_self]
    · simp only [Files.get_put_ne _ _ _ _ hpf]
      exact hp

theorem status_runOps (ops : List Op) :
    ∀ r : Repository, r.Status = [] → (runOps ops r).Status = [] := by
  induction ops with
  | nil => intro r h; exact h
  | cons op ops ih =>
    intro r h
    apply ih
    cases op with
    | create w newUUID post =>
      simp only [Op.call, createPost_snd]
      exact status_commitFile _ _ _ _ _ _ h
    | edit w postId post =>
      simp only [Op.call, editPost_snd]
      exact status_commitFile _ _ _ _ _ _ h

/-! ## Never-created ids -/

theorem getFileContent_of_neverCommitted (w : World) (filename rev : String) (r : Repository)
    (h : r.NeverCommitted filename) :
    ∃ e : GoError,
      LocalGitRepositoryCommunicator.GetFileContent w filename rev r = .error e := by
  unfold LocalGitRepositoryCommunicator.GetFileContent
  cases r.ResolveRevision w rev with
  | error e => exact ⟨_, rfl⟩
  | ok commitHash =>
    simp only [Repository.CommitObject]
    cases hf : r.commits.find? (fun c => decide (c.Hash = commitHash)) with
    | none => exact ⟨_, rfl⟩
    | some c =>
      have hc : c.Tree.get filename = none := h c (List.mem_of_find?_eq_some hf)
      simp only [Repository.File, hc]
      exact ⟨_, rfl⟩

/-- C7, as the code has it. For an id X whose file is in no commit of the repository:
GetPost(X) and GetPostVersion(X, v), for every v, fail with an error "failed to get
target: ..."; GetPostTimeline(X) fails in the same way when the repository has no commit
and succeeds with an empty list when it has one; EditPost(X, content) is not guarded: when
go-git gives the new commit a non-empty name it succeeds, returns that name as version id
and creates the document, which then reads back the content and has a timeline of one
entry. -/
theorem neverCommitted_operations (w w' : World) (X : String) (post : PostContent)
    (r : Repository) (hnever : r.NeverCommitted (X ++ ".json")) (hh : w.hash ≠ "") :
    (∃ e : GoError,
        GitStorage.GetPost (Local w') X r = .error (Errorf "failed to get target: " e)) ∧
    (∀ v : String, ∃ e : GoError,
        GitStorage.GetPostVersion (Local w') X v r =
          .error (Errorf "failed to get target: " e)) ∧
    (GitStorage.GetPostTimeline (Local w') X r =
        if r.commits = [] then
          .error (Errorf "failed to get target: "
            (Errorf "failed to get repository head: " ⟨"reference not found"⟩))
        else .ok []) ∧
    (GitStorage.EditPost (Local w) X post r).1 = (w.hash, none) ∧
    GitStorage.GetPost (Local w') X (GitStorage.EditPost (Local w) X post r).2 =
      .ok post.Body ∧
    GitStorage.GetPostTimeline (Local w') X (GitStorage.EditPost (Local w) X post r).2 =
      .ok [{ VersionId := w.hash, Title := post.Title, Date := w.now,
             User := post.Username }] := by
  have hhead : r.headTree.get (X ++ ".json") = none :=
    tipTree_get_of_neverCommitted _ _ hnever
  have hdiff : r.headTree.get (X ++ ".json") ≠ some post.Body := by rw [hhead]; simp
  refine ⟨?_, ?_, ?_, ?_, ?_, ?_⟩
  · obtain ⟨e, he⟩ := getFileContent_of_neverCommitted w' (X ++ ".json") "HEAD" r hnever
    exact ⟨e, by simp [GitStorage.GetPost, Local, he]⟩
  · intro v
    obtain ⟨e, he⟩ := getFileContent_of_neverCommitted w' (X ++ ".json") v r hnever
    exact ⟨e, by simp [GitStorage.GetPostVersion, Local, he]⟩
  · rw [getPostTimeline_local]
    obtain ⟨commits, idx, wt⟩ := r
    cases commits with
    | nil => simp
    | cons c cs => simp [log_of_neverCommitted _ _ hnever]
  · rw [editPost_local_of_ne w X post r hdiff hh]
  · rw [editPost_local_of_ne w X post r hdiff hh]
    simp [GitStorage.GetPost, Local, getFileContent_head, Files.get_put_self]
  · rw [editPost_local_of_ne w X post r hdiff hh, getPostTimeline_local]
    simp only
    rw [log_cons_of_ne, log_of_neverCommitted _ _ hnever]
    · simp [summaryOf]
    · have := tipTree_get_of_neverCommitted _ _ hnever
      rw [this, Files.get_put_self]
      simp

/-- C7 as stated fails: in a repository that holds one document, EditPost on an id that
no CreatePost returned succeeds and creates the document with a version, and
GetPostTimeline on such an id succeeds with an empty list. -/
theorem editPost_never_created_succeeds :
    GitStorage.EditPost (Local ⟨9, "decade", fun _ => none⟩) "ghost" ⟨"boo", "t", "bob"⟩
        { commits := [⟨"c0ffee", "title", "ann", 7, [("id-1.json", "v1")]⟩],
          index := [("id-1.json", "v1")], worktree := [("id-1.json", "v1")] } =
      (("decade", none),
        { commits := [⟨"decade", "t", "bob", 9, [("id-1.json", "v1"), ("ghost.json", "boo")]⟩,
                      ⟨"c0ffee", "title", "ann", 7, [("id-1.json", "v1")]⟩],
          index := [("id-1.json", "v1"), ("ghost.json", "boo")],
          worktree := [("id-1.json", "v1"), ("ghost.json", "boo")] }) ∧
    GitStorage.GetPost (Local ⟨8, "unused", fun _ => none⟩) "ghost"
        { commits := [⟨"decade", "t", "bob", 9, [("id-1.json", "v1"), ("ghost.json", "boo")]⟩,
                      ⟨"c0ffee", "title", "ann", 7, [("id-1.json", "v1")]⟩],
          index := [("id-1.json", "v1"), ("ghost.json", "boo")],
          worktree := [("id-1.json", "v1"), ("ghost.json", "boo")] } = .ok "boo" ∧
    GitStorage.GetPostTimeline (Local ⟨8, "unused", fun _ => none⟩) "ghost"
        { commits := [⟨"c0ffee", "title", "ann", 7, [("id-1.json", "v1")]⟩],
          index := [("id-1.json", "v1")], worktree := [("id-1.json", "v1")] } = .ok [] :=
  ⟨by decide, by rfl, by rfl⟩

/-- The amended C7 at a concrete input. -/
theorem neverCommitted_operations_witness :
    (GitStorage.EditPost (Local ⟨9, "decade", fun _ => none⟩) "ghost" ⟨"boo", "t", "bob"⟩
        { commits := [⟨"c0ffee", "title", "ann", 7, [("id-1.json", "v1")]⟩],
          index := [("id-1.json", "v1")], worktree := [("id-1.json", "v1")] }).1 =
      ("decade", none) ∧
    ∃ e : GoError,
      GitStorage.GetPost (Local ⟨8, "unused", fun _ => none⟩) "ghost"
          { commits := [⟨"c0ffee", "title", "ann", 7, [("id-1.json", "v1")]⟩],
            index := [("id-1.json", "v1")], worktree := [("id-1.json", "v1")] } =
        .error (Errorf "failed to get target: " e) :=
  have h := neverCommitted_operations ⟨9, "decade", fun _ => none⟩ ⟨8, "unused", fun _ => none⟩ "ghost" ⟨"boo", "t", "bob"⟩
    { commits := [⟨"c0ffee", "title", "ann", 7, [("id-1.json", "v1")]⟩],
      index := [("id-1.json", "v1")], worktree := [("id-1.json", "v1")] }
    (by simp [Repository.NeverCommitted, Files.get]) (by decide)
  ⟨h.2.2.2.1, h.1⟩

/-- HandleEditPost refuses a post the metadata store does not know: when GetPostMetadata
returns an error or no record, the handler answers 404 and EditPost is not called, so
neither store changes. -/
theorem handleEditPost_without_metadata {σ μ : Type} (srv : Server σ μ)
    (req : UpdatePostRequest) (postID date : String) (st : σ × μ)
    (hmeta : (srv.metadataStorage.GetPostMetadata postID st.2).2 ≠ none ∨
      (srv.metadataStorage.GetPostMetadata postID st.2).1 = none) :
    srv.HandleEditPost (some req) postID date st =
      (⟨StatusNotFound, .error "Post metadata not found"⟩, st) := by
  rcases h : srv.metadataStorage.GetPostMetadata postID st.2 with ⟨pm, err⟩
  rw [h] at hmeta
  cases err with
  | some e => simp only [Server.HandleEditPost, h]
  | none =>
    cases pm with
    | none => simp only [Server.HandleEditPost, h]
    | some p => simp at hmeta

/-! ## GetPostTimeline over any backend -/

/-- C8, as the code has it. Over any backend: when GetFileTimeline fails, GetPostTimeline
fails with that error behind "failed to get target: "; when GetFileTimeline returns a
timeline, of zero commits or more, GetPostTimeline succeeds with one summary per commit, in
the same order, versionId, title, date and user copied from the commit's id, message, date
and author. -/
theorem getPostTimeline_maps_history {σ : Type} (g : GitRepositoryCommunitor σ) (id : String)
    (s : σ) :
    GitStorage.GetPostTimeline g id s =
      match g.GetFileTimeline (id ++ ".json") s with
      | .error err => .error (Errorf "failed to get target: " err)
      | .ok timeline =>
        .ok (timeline.Commits.map fun c =>
          { VersionId := c.CommitId, Title := c.Message, Date := c.Date, User := c.Author }) := by
  simp only [GitStorage.GetPostTimeline]
  cases g.GetFileTimeline (id ++ ".json") s with
  | error err => rfl
  | ok timeline => simp [foldl_appendVersion]

/-- C8 as stated fails: the local backend answers a path without history, in a repository
that has a commit, with a timeline of zero commits, and GetPostTimeline then succeeds with
an empty list. -/
theorem getPostTimeline_empty_history_succeeds :
    LocalGitRepositoryCommunicator.GetFileTimeline "no-such-post.json"
        { commits := [⟨"c0ffee", "title", "ann", 7, [("id-1.json", "v1")]⟩],
          index := [("id-1.json", "v1")], worktree := [("id-1.json", "v1")] } =
      .ok { Commits := [] } ∧
    GitStorage.GetPostTimeline (Local ⟨8, "unused", fun _ => none⟩) "no-such-post"
        { commits := [⟨"c0ffee", "title", "ann", 7, [("id-1.json", "v1")]⟩],
          index := [("id-1.json", "v1")], worktree := [("id-1.json", "v1")] } = .ok [] :=
  ⟨by rfl, by rfl⟩

/-! ## Outcomes of EditPost and CreatePost over any backend -/

/-- The text of a wrapped CommitFile error is never the text "nothing changed". -/
theorem wrapped_ne_nothing_changed (e : GoError) :
    (Errorf "failed to write to file: " e).Error ≠ "nothing changed" := by
  intro h
  have h2 := congrArg String.data h
  simp [Errorf, String.data_append] at h2

/-- EditPost over any backend, by the three answers CommitFile can give. -/
theorem editPost_cases {σ : Type} (g : GitRepositoryCommunitor σ) (postId : String)
    (post : PostContent) (s : σ) :
    GitStorage.EditPost g postId post s =
      match g.CommitFile (postId ++ ".json") post.Title post.Username post.Body s with
      | ((_, some e), s') => (("", some (Errorf "failed to write to file: " e)), s')
      | ((commitId, none), s') =>
        if commitId = "" then (("", some ⟨"nothing changed"⟩), s')
        else ((commitId, none), s') := by
  rcases h : g.CommitFile (postId ++ ".json") post.Title post.Username post.Body s with
    ⟨⟨commitId, err⟩, s'⟩
  simp only [GitStorage.EditPost, h]
  cases err <;> rfl

/-- CreatePost over any backend, by the three answers CommitFile can give. -/
theorem createPost_cases {σ : Type} (g : GitRepositoryCommunitor σ) (newUUID : String)
    (post : PostContent) (s : σ) :
    GitStorage.CreatePost g newUUID post s =
      match g.CommitFile (newUUID ++ ".json") post.Title post.Username post.Body s with
      | ((_, some e), s') => (("", some (Errorf "failed to write to file: " e)), s')
      | ((commitId, none), s') =>
        if commitId = "" then (("", some ⟨"nothing changed"⟩), s')
        else ((newUUID, none), s') := by
  rcases h : g.CommitFile (newUUID ++ ".json") post.Title post.Username post.Body s with
    ⟨⟨commitId, err⟩, s'⟩
  simp only [GitStorage.CreatePost, h]
  cases err <;> rfl

/-- HandleEditPost once the request is decoded and the metadata record is found, by the
answer of EditPost. -/
theorem handleEditPost_cases {σ μ : Type} (srv : Server σ μ) (req : UpdatePostRequest)
    (postID date : String) (st : σ × μ) (pm : PostMetadata)
    (hmeta : srv.metadataStorage.GetPostMetadata postID st.2 = (some pm, none)) :
    srv.HandleEditPost (some req) postID date st =
      match srv.timelineStorage.EditPost postID
          { Body := req.Body, Title := req.Title, Username := req.User } st.1 with
      | ((_, some e), t) =>
        if e.Error = "nothing changed" then
          (⟨StatusNotModified, .message "No changes detected"⟩, (t, st.2))
        else (⟨StatusInternalServerError, .error "Failed to edit post"⟩, (t, st.2))
      | ((versionId, none), t) =>
        match srv.metadataStorage.UpdatePostMetadata
            { PostID := postID, Title := req.Title, Username := req.User,
              VersionsNumber := pm.VersionsNumber + 1, Date := date } st.2 with
        | (some _, m) =>
          (⟨StatusInternalServerError, .error "Failed to update post metadata"⟩, (t, m))
        | (none, m) => (⟨StatusOK, .createVersionResponse versionId⟩, (t, m)) := by
  rcases h : srv.timelineStorage.EditPost postID
    { Body := req.Body, Title := req.Title, Username := req.User } st.1 with
    ⟨⟨versionId, err⟩, t⟩
  simp only [Server.HandleEditPost, hmeta, h]
  cases err <;> rfl

/-- HandleCreatePost once the request is decoded, when CreatePost answers an error. -/
theorem handleCreatePost_of_error {σ μ : Type} (srv : Server σ μ) (req : CreatePostRequest)
    (date : String) (st : σ × μ) (postId : String) (e : GoError) (t : σ)
    (h : srv.timelineStorage.CreatePost
        { Body := req.Body, Title := req.Title, Username := req.Username } st.1 =
      ((postId, some e), t)) :
    srv.HandleCreatePost (some req) date st =
      (⟨StatusInternalServerError, .error "Failed to create post"⟩, (t, st.2)) := by
  simp only [Server.HandleCreatePost, h]

/-- C9. Nothing-changed is distinguished from failure in EditPost: over any backend, post id
and content, EditPost answers the "nothing changed" outcome exactly when CommitFile returned
an empty commit id and no error; when CommitFile returns an error, whatever it is, EditPost
answers that error behind "failed to write to file: ", which is not "nothing changed", and
HandleEditPost renders it as 500; "nothing changed" is rendered as 304 and leaves the
metadata store as it was. -/
theorem editPost_nothing_changed_iff {σ μ : Type} (g : GitRepositoryCommunitor σ)
    (m : PostMetadataStorage μ) (newUUID postId date : String) (req : UpdatePostRequest)
    (s : σ) (ms : μ) (pm : PostMetadata)
    (hmeta : m.GetPostMetadata postId ms = (some pm, none)) :
    ((GitStorage.EditPost g postId ⟨req.Body, req.Title, req.User⟩ s).1.2 =
        some ⟨"nothing changed"⟩ ↔
      (g.CommitFile (postId ++ ".json") req.Title req.User req.Body s).1 = ("", none)) ∧
    (∀ e : GoError,
      (g.CommitFile (postId ++ ".json") req.Title req.User req.Body s).1.2 = some e →
        (GitStorage.EditPost g postId ⟨req.Body, req.Title, req.User⟩ s).1 =
          ("", some (Errorf "failed to write to file: " e)) ∧
        (GitStorage.EditPost g postId ⟨req.Body, req.Title, req.User⟩ s).1.2 ≠
          some ⟨"nothing changed"⟩ ∧
        (Server.HandleEditPost ⟨GitStorage.storage g newUUID, m⟩ (some req) postId date
          (s, ms)).1 = ⟨500, .error "Failed to edit post"⟩) ∧
    ((g.CommitFile (postId ++ ".json") req.Title req.User req.Body s).1 = ("", none) →
        (Server.HandleEditPost ⟨GitStorage.storage g newUUID, m⟩ (some req) postId date
          (s, ms)).1 = ⟨304, .message "No changes detected"⟩ ∧
        (Server.HandleEditPost ⟨GitStorage.storage g newUUID, m⟩ (some req) postId date
          (s, ms)).2.2 = ms) := by
  rw [handleEditPost_cases ⟨GitStorage.storage g newUUID, m⟩ req postId date (s, ms) pm hmeta]
  simp only [GitStorage.storage]
  rw [editPost_cases]
  rcases h : g.CommitFile (postId ++ ".json") req.Title req.User req.Body s with
    ⟨⟨commitId, err⟩, s'⟩
  cases err with
  | some e =>
    have hne := wrapped_ne_nothing_changed e
    refine ⟨?_, ?_, ?_⟩
    · constructor
      · intro hc
        exact absurd (congrArg GoError.Error (Option.some.inj hc)) hne
      · intro hc
        simp at hc
    · intro e' he'
      simp only [Option.some.injEq] at he'
      subst he'
      refine ⟨rfl, ?_, ?_⟩
      · intro hc
        exact hne (congrArg GoError.Error (Option.some.inj hc))
      · simp only [if_neg hne]
        rfl
    · intro hc
      simp at hc
  | none =>
    by_cases hc : commitId = ""
    · subst hc
      refine ⟨?_, ?_, ?_⟩
      · simp
      · intro e he
        simp at he
      · intro _
        simp [StatusNotModified]
    · refine ⟨?_, ?_, ?_⟩
      · simp [hc]
      · intro e he
        simp at he
      · intro h2
        simp [hc] at h2

/-- C10. NoChange on creation is an internal error: over any backend and content, if
CommitFile returns an empty commit id and no error during CreatePost, then CreatePost
returns the error "nothing changed" and no document id, and HandleCreatePost answers 500 and
leaves the metadata store as it was; CreatePost returns without error, and then the fresh
id, only when CommitFile returned a non-empty commit id and no error, and whenever it
returns an error it returns no id. -/
theorem createPost_noChange_is_error {σ μ : Type} (g : GitRepositoryCommunitor σ)
    (m : PostMetadataStorage μ) (newUUID date : String) (req : CreatePostRequest)
    (s : σ) (ms : μ) :
    ((g.CommitFile (newUUID ++ ".json") req.Title req.Username req.Body s).1 = ("", none) →
        (GitStorage.CreatePost g newUUID req s).1 = ("", some ⟨"nothing changed"⟩) ∧
        (Server.HandleCreatePost ⟨GitStorage.storage g newUUID, m⟩ (some req) date (s, ms)).1 =
          ⟨500, .error "Failed to create post"⟩ ∧
        (Server.HandleCreatePost ⟨GitStorage.storage g newUUID, m⟩ (some req) date
          (s, ms)).2.2 = ms) ∧
    ((GitStorage.CreatePost g newUUID req s).1.2 = none →
        (GitStorage.CreatePost g newUUID req s).1.1 = newUUID ∧
        (g.CommitFile (newUUID ++ ".json") req.Title req.Username req.Body s).1.2 = none ∧
        (g.CommitFile (newUUID ++ ".json") req.Title req.Username req.Body s).1.1 ≠ "") ∧
    ((GitStorage.CreatePost g newUUID req s).1.2 ≠ none →
        (GitStorage.CreatePost g newUUID req s).1.1 = "") := by
  have hC := createPost_cases g newUUID req s
  rcases h : g.CommitFile (newUUID ++ ".json") req.Title req.Username req.Body s with
    ⟨⟨commitId, err⟩, s'⟩
  rw [h] at hC
  cases err with
  | some e =>
    simp only at hC
    refine ⟨?_, ?_, ?_⟩
    · intro hc; simp at hc
    · intro hc; rw [hC] at hc; simp at hc
    · intro _; rw [hC]
  | none =>
    by_cases hc : commitId = ""
    · subst hc
      simp only [if_true] at hC
      refine ⟨?_, ?_, ?_⟩
      · intro _
        have hH := handleCreatePost_of_error ⟨GitStorage.storage g newUUID, m⟩ req date (s, ms)
          "" ⟨"nothing changed"⟩ s' hC
        rw [hH, hC]
        exact ⟨rfl, rfl, rfl⟩
      · intro h2; rw [hC] at h2; simp at h2
      · intro _; rw [hC]
    · simp only [if_neg hc] at hC
      refine ⟨?_, ?_, ?_⟩
      · intro h2; simp at h2; exact absurd h2 hc
      · intro _; rw [hC]; exact ⟨rfl, rfl, hc⟩
      · intro h2; rw [hC] at h2; simp at h2

/-- C9 at concrete inputs: a backend that fails with "disk full", and the local repository
asked to store the body it already has. -/
theorem editPost_nothing_changed_iff_witness :
    (Server.HandleEditPost ⟨GitStorage.storage (failingBackend ⟨"disk full"⟩) "u",
        listMetadataStorage⟩ (some ⟨"v2", "t", "bob"⟩) "id-1" "2024-01-01T00:00:00Z"
        ((), [⟨"id-1", "title", "2023-12-31T00:00:00Z", 1, "ann"⟩])).1 =
      ⟨500, .error "Failed to edit post"⟩ ∧
    (Server.HandleEditPost ⟨GitStorage.storage (Local ⟨9, "decade", fun _ => none⟩) "u",
        listMetadataStorage⟩ (some ⟨"v1", "t", "bob"⟩) "id-1" "2024-01-01T00:00:00Z"
        ({ commits := [⟨"c0ffee", "title", "ann", 7, [("id-1.json", "v1")]⟩],
           index := [("id-1.json", "v1")], worktree := [("id-1.json", "v1")] },
          [⟨"id-1", "title", "2023-12-31T00:00:00Z", 1, "ann"⟩])).1 =
      ⟨304, .message "No changes detected"⟩ :=
  ⟨((editPost_nothing_changed_iff (failingBackend ⟨"disk full"⟩) listMetadataStorage "u" "id-1"
      "2024-01-01T00:00:00Z" ⟨"v2", "t", "bob"⟩ ()
      [⟨"id-1", "title", "2023-12-31T00:00:00Z", 1, "ann"⟩]
      ⟨"id-1", "title", "2023-12-31T00:00:00Z", 1, "ann"⟩ (by rfl)).2.1
        ⟨"disk full"⟩ (by rfl)).2.2,
   ((editPost_nothing_changed_iff (Local ⟨9, "decade", fun _ => none⟩) listMetadataStorage "u" "id-1"
      "2024-01-01T00:00:00Z" ⟨"v1", "t", "bob"⟩
      { commits := [⟨"c0ffee", "title", "ann", 7, [("id-1.json", "v1")]⟩],
        index := [("id-1.json", "v1")], worktree := [("id-1.json", "v1")] }
      [⟨"id-1", "title", "2023-12-31T00:00:00Z", 1, "ann"⟩]
      ⟨"id-1", "title", "2023-12-31T00:00:00Z", 1, "ann"⟩ (by rfl)).2.2 (by decide)).1⟩

/-- C10 at concrete inputs: the fresh id names a file the tip already holds with the same
body, so CommitFile reports no change and the handler answers 500; in an empty repository
the same call returns the fresh id. -/
theorem createPost_noChange_is_error_witness :
    (Server.HandleCreatePost ⟨GitStorage.storage (Local ⟨9, "decade", fun _ => none⟩) "id-1",
        listMetadataStorage⟩ (some ⟨"v1", "t", "bob"⟩) "2024-01-01T00:00:00Z"
        ({ commits := [⟨"c0ffee", "title", "ann", 7, [("id-1.json", "v1")]⟩],
           index := [("id-1.json", "v1")], worktree := [("id-1.json", "v1")] },
          [])).1 = ⟨500, .error "Failed to create post"⟩ ∧
    (LocalGitRepositoryCommunicator.CommitFile ⟨9, "decade", fun _ => none⟩ ("id-1" ++ ".json") "t" "bob" "v1"
        Repository.init).1.1 ≠ "" :=
  ⟨((createPost_noChange_is_error (Local ⟨9, "decade", fun _ => none⟩) listMetadataStorage "id-1"
      "2024-01-01T00:00:00Z" ⟨"v1", "t", "bob"⟩
      { commits := [⟨"c0ffee", "title", "ann", 7, [("id-1.json", "v1")]⟩],
        index := [("id-1.json", "v1")], worktree := [("id-1.json", "v1")] }
      ([] : List PostMetadata)).1 (by decide)).2.1,
   ((createPost_noChange_is_error (Local ⟨9, "decade", fun _ => none⟩) listMetadataStorage "id-1"
      "2024-01-01T00:00:00Z" ⟨"v1", "t", "bob"⟩ Repository.init
      ([] : List PostMetadata)).2.1 (by decide)).2.2⟩

/-! ## HandleGetVersion -/

/-- HandleGetVersion never answers 404: it answers 400, 500 or 200. -/
theorem handleGetVersion_status {σ μ : Type} (srv : Server σ μ) (postId versionId : String)
    (st : σ × μ) :
    (srv.HandleGetVersion postId versionId st).1.status = 400 ∨
      (srv.HandleGetVersion postId versionId st).1.status = 500 ∨
      (srv.HandleGetVersion postId versionId st).1.status = 200 := by
  unfold Server.HandleGetVersion
  split_ifs
  · exact Or.inl rfl
  · cases srv.timelineStorage.GetPostVersion postId versionId st.1 with
    | error e => exact Or.inr (Or.inl rfl)
    | ok p => exact Or.inr (Or.inr rfl)

/-- C6 on the code: for a document that exists (GetPost reads it) and a version id that
does not resolve, HandleGetVersion answers 500 "Failed to fetch post version", not 404, and
it gives the very same answer for a document that does not exist; in GetPostVersion the two
cases differ only in the text wrapped behind "failed to get target: ". -/
theorem handleGetVersion_unknown_version_is_500 :
    GitStorage.GetPost (Local ⟨8, "unused", fun _ => none⟩) "id-1"
        { commits := [⟨"c0ffee", "title", "ann", 7, [("id-1.json", "v1")]⟩],
          index := [("id-1.json", "v1")], worktree := [("id-1.json", "v1")] } = .ok "v1" ∧
    GitStorage.GetPostVersion (Local ⟨8, "unused", fun _ => none⟩) "id-1" "bogus"
        { commits := [⟨"c0ffee", "title", "ann", 7, [("id-1.json", "v1")]⟩],
          index := [("id-1.json", "v1")], worktree := [("id-1.json", "v1")] } =
      .error ⟨"failed to get target: failed to resolve revision: reference not found"⟩ ∧
    (Server.HandleGetVersion ⟨GitStorage.storage (Local ⟨8, "unused", fun _ => none⟩) "u",
        listMetadataStorage⟩ "id-1" "bogus"
        ({ commits := [⟨"c0ffee", "title", "ann", 7, [("id-1.json", "v1")]⟩],
           index := [("id-1.json", "v1")], worktree := [("id-1.json", "v1")] },
          [⟨"id-1", "title", "2023-12-31T00:00:00Z", 1, "ann"⟩])).1 =
      ⟨500, .error "Failed to fetch post version"⟩ ∧
    (Server.HandleGetVersion ⟨GitStorage.storage (Local ⟨8, "unused", fun _ => none⟩) "u",
        listMetadataStorage⟩ "no-such-post" "c0ffee"
        ({ commits := [⟨"c0ffee", "title", "ann", 7, [("id-1.json", "v1")]⟩],
           index := [("id-1.json", "v1")], worktree := [("id-1.json", "v1")] },
          [⟨"id-1", "title", "2023-12-31T00:00:00Z", 1, "ann"⟩])).1 =
      ⟨500, .error "Failed to fetch post version"⟩ :=
  ⟨by rfl, by rfl, by rfl, by rfl⟩

/-! ## The mutex -/

/-- CommitFile takes the mutex first and gives it back last, with no other operation on the
mutex in between. -/
theorem eventsOfCommitFile_bracketed (filename content : String) (r : Repository) :
    Bracketed (LocalGitRepositoryCommunicator.eventsOfCommitFile filename content r) := by
  unfold Bracketed LocalGitRepositoryCommunicator.eventsOfCommitFile
  split_ifs
  · exact ⟨[.access "repository.Worktree", .access "os.Create", .access "outputFile.Write",
      .access "workTree.Add", .access "workTree.Status", .access "outputFile.Close"],
      by simp, by simp⟩
  · exact ⟨[.access "repository.Worktree", .access "os.Create", .access "outputFile.Write",
      .access "workTree.Add", .access "workTree.Status", .access "workTree.Commit",
      .access "outputFile.Close"], by simp, by simp⟩

/-- GetFileContent takes the mutex first and gives it back last, with no other operation on
the mutex in between. -/
theorem eventsOfGetFileContent_bracketed (w : World) (filename commitId : String)
    (r : Repository) :
    Bracketed (LocalGitRepositoryCommunicator.eventsOfGetFileContent w filename commitId r) := by
  unfold Bracketed
  cases h1 : r.ResolveRevision w commitId with
  | error _ =>
    exact ⟨[.access "repository.ResolveRevision"],
      by simp [LocalGitRepositoryCommunicator.eventsOfGetFileContent, h1], by simp⟩
  | ok commitHash =>
    cases h2 : r.CommitObject commitHash with
    | error _ =>
      exact ⟨[.access "repository.ResolveRevision", .access "repository.CommitObject"],
        by simp [LocalGitRepositoryCommunicator.eventsOfGetFileContent, h1, h2], by simp⟩
    | ok commit =>
      cases h3 : Repository.File commit filename with
      | error _ =>
        exact ⟨[.access "repository.ResolveRevision", .access "repository.CommitObject",
          .access "commit.File"],
          by simp [LocalGitRepositoryCommunicator.eventsOfGetFileContent, h1, h2, h3], by simp⟩
      | ok _ =>
        exact ⟨[.access "repository.ResolveRevision", .access "repository.CommitObject",
          .access "commit.File", .access "file.Contents"],
          by simp [LocalGitRepositoryCommunicator.eventsOfGetFileContent, h1, h2, h3], by simp⟩

/-- GetFileTimeline never touches the mutex, and its first event is an access to the
repository. -/
theorem eventsOfGetFileTimeline_unlocked (filename : String) (r : Repository) :
    Event.lock ∉ LocalGitRepositoryCommunicator.eventsOfGetFileTimeline filename r ∧
    Event.unlock ∉ LocalGitRepositoryCommunicator.eventsOfGetFileTimeline filename r ∧
    (LocalGitRepositoryCommunicator.eventsOfGetFileTimeline filename r).head? =
      some (.access "repository.Head") := by
  unfold LocalGitRepositoryCommunicator.eventsOfGetFileTimeline
  cases r.Head with
  | error _ => simp
  | ok _ => simp

theorem holderAfter_append (tr tr' : List (Nat × Event)) :
    ∀ holder : Option Nat,
      holderAfter (tr ++ tr') holder = holderAfter tr' (holderAfter tr holder) := by
  induction tr with
  | nil => intro holder; rfl
  | cons x rest ih =>
    intro holder
    obtain ⟨i, e⟩ := x
    cases e <;> simp [holderAfter, ih]

theorem accessesUnderForeignLock_append (tr tr' : List (Nat × Event)) :
    ∀ holder : Option Nat,
      accessesUnderForeignLock (tr ++ tr') holder =
        accessesUnderForeignLock tr holder ++
          accessesUnderForeignLock tr' (holderAfter tr holder) := by
  induction tr with
  | nil => intro holder; rfl
  | cons x rest ih =>
    intro holder
    obtain ⟨i, e⟩ := x
    cases e with
    | lock => simp [accessesUnderForeignLock, holderAfter, ih]
    | unlock => simp [accessesUnderForeignLock, holderAfter, ih]
    | access call =>
      simp only [List.cons_append, accessesUnderForeignLock, holderAfter]
      split_ifs <;> simp [ih]

/-- Before any call has run, goroutines of bracketed calls are serialized. -/
theorem serialized_start (calls : List (List Event)) (h : ∀ events ∈ calls, Bracketed events) :
    (Goroutines.start calls).Serialized := by
  refine ⟨rfl, rfl, ?_⟩
  intro j events hj
  refine Or.inr ⟨by simp [Goroutines.start], Or.inr (h events ?_)⟩
  exact List.getElem?_mem hj

/-- A step of goroutines of bracketed calls keeps them serialized. -/
theorem serialized_step (g g' : Goroutines) (i : Nat) (hg : g.Serialized)
    (hstep : g.step i = some g') : g'.Serialized := by
  obtain ⟨hholder, hforeign, hpending⟩ := hg
  unfold Goroutines.step at hstep
  cases hp : g.pending[i]? with
  | none => simp [hp] at hstep
  | some events =>
    cases events with
    | nil => simp [hp] at hstep
    | cons e rest =>
      have hi : i < g.pending.length := by
        obtain ⟨hlt, _⟩ := List.getElem?_eq_some.mp hp
        exact hlt
      have hother : ∀ (j : Nat) (events : List Event), j ≠ i →
          (g.pending.set i rest)[j]? = some events → g.pending[j]? = some events := by
        intro j events hji hj
        rwa [List.getElem?_set_ne (Ne.symm hji)] at hj
      have hself : ∀ events : List Event,
          (g.pending.set i rest)[i]? = some events → events = rest := by
        intro events hj
        rw [List.getElem?_set_self hi] at hj
        exact (Option.some.inj hj).symm
      cases e with
      | lock =>
        simp only [hp] at hstep
        split_ifs at hstep with hnone
        obtain rfl := Option.some.inj hstep
        have hrest : Inside rest := by
          rcases hpending i _ hp with ⟨hh, _⟩ | ⟨_, hnil | ⟨body, hb, hall⟩⟩
          · rw [hnone] at hh; cases hh
          · cases hnil
          · exact ⟨body, (List.cons.inj hb).2, hall⟩
        refine ⟨?_, ?_, ?_⟩
        · simp [holderAfter_append, holderAfter]
        · simp [accessesUnderForeignLock_append, hforeign, accessesUnderForeignLock]
        · intro j events hj
          by_cases hji : j = i
          · subst hji
            exact Or.inl ⟨rfl, hself events hj ▸ hrest⟩
          · rcases hpending j events (hother j events hji hj) with ⟨hh, _⟩ | ⟨_, hfree⟩
            · rw [hnone] at hh; cases hh
            · exact Or.inr ⟨fun h => hji (Option.some.inj h).symm, hfree⟩
      | unlock =>
        simp only [hp] at hstep
        obtain rfl := Option.some.inj hstep
        have hmine : g.holder = some i ∧ rest = [] := by
          rcases hpending i _ hp with ⟨hh, body, hb, hall⟩ | ⟨_, hnil | ⟨body, hb, _⟩⟩
          · refine ⟨hh, ?_⟩
            cases body with
            | nil => simpa using (List.cons.inj hb).2
            | cons b body' =>
              obtain ⟨call, hcall⟩ := hall b (List.mem_cons_self _ _)
              have := (List.cons.inj hb).1
              rw [hcall] at this
              cases this
          · cases hnil
          · cases (List.cons.inj hb).1
        refine ⟨?_, ?_, ?_⟩
        · simp [holderAfter_append, holderAfter]
        · simp [accessesUnderForeignLock_append, hforeign, accessesUnderForeignLock]
        · intro j events hj
          by_cases hji : j = i
          · subst hji
            exact Or.inr ⟨by simp, Or.inl (by rw [hself events hj, hmine.2])⟩
          · rcases hpending j events (hother j events hji hj) with ⟨hh, _⟩ | ⟨_, hfree⟩
            · rw [hmine.1] at hh
              exact absurd (Option.some.inj hh).symm hji
            · exact Or.inr ⟨by simp, hfree⟩
      | access call =>
        simp only [hp] at hstep
        obtain rfl := Option.some.inj hstep
        have hmine : g.holder = some i ∧ Inside rest := by
          rcases hpending i _ hp with ⟨hh, body, hb, hall⟩ | ⟨_, hnil | ⟨body, hb, _⟩⟩
          · refine ⟨hh, ?_⟩
            cases body with
            | nil => cases (List.cons.inj hb).1
            | cons b body' =>
              exact ⟨body', (List.cons.inj hb).2,
                fun e he => hall e (List.mem_cons_of_mem _ he)⟩
          · cases hnil
          · cases (List.cons.inj hb).1
        refine ⟨?_, ?_, ?_⟩
        · simp [holderAfter_append, holderAfter, hholder]
        · simp [accessesUnderForeignLock_append, hforeign, accessesUnderForeignLock, hholder,
            hmine.1]
        · intro j events hj
          by_cases hji : j = i
          · subst hji
            exact Or.inl ⟨hmine.1, hself events hj ▸ hmine.2⟩
          · rcases hpending j events (hother j events hji hj) with hl | hr
            · exact Or.inl hl
            · exact Or.inr hr

/-- Through any schedule, goroutines of bracketed calls stay serialized. -/
theorem serialized_run (schedule : List Nat) :
    ∀ g g' : Goroutines, g.Serialized → Goroutines.run schedule g = some g' →
      g'.Serialized := by
  induction schedule with
  | nil =>
    intro g g' hg hrun
    simp only [Goroutines.run, Option.some.injEq] at hrun
    exact hrun ▸ hg
  | cons i schedule ih =>
    intro g g' hg hrun
    simp only [Goroutines.run] at hrun
    cases hs : g.step i with
    | none => simp [hs] at hrun
    | some g1 =>
      simp only [hs] at hrun
      exact ih g1 g' (serialized_step g g1 i hg hs) hrun

/-- Calls of CommitFile and GetFileContent, any number of them and in any schedule, never
access the repository while another call holds the mutex. -/
theorem locked_calls_never_overlap (calls : List (List Event))
    (h : ∀ events ∈ calls, Bracketed events) (schedule : List Nat) (g : Goroutines)
    (hrun : Goroutines.run schedule (Goroutines.start calls) = some g) :
    accessesUnderForeignLock g.done none = [] :=
  (serialized_run schedule _ g (serialized_start calls h) hrun).no_foreign

/-- C11 on the code: with a CommitFile call (goroutine 0) and a GetFileTimeline call
(goroutine 1) on the same repository, the schedule in which CommitFile takes the mutex and
writes the file, GetFileTimeline then runs from its first to its last statement, and
CommitFile goes on, is possible: GetFileTimeline has no operation on the mutex, and all its
accesses to the repository happen while CommitFile holds the mutex, between the staging and
the commit. -/
theorem getFileTimeline_runs_inside_commitFile :
    LocalGitRepositoryCommunicator.eventsOfGetFileTimeline "id-1.json"
        { commits := [⟨"c0ffee", "title", "ann", 7, [("id-1.json", "v1")]⟩],
          index := [("id-1.json", "v1")], worktree := [("id-1.json", "v1")] } =
      [.access "repository.Head", .access "repository.Log",
        .access "historyIterator.ForEach"] ∧
    (Goroutines.run [0, 0, 0, 0, 0, 1, 1, 1, 0, 0, 0, 0]
        (Goroutines.start
          [LocalGitRepositoryCommunicator.eventsOfCommitFile "id-1.json" "v2"
              { commits := [⟨"c0ffee", "title", "ann", 7, [("id-1.json", "v1")]⟩],
                index := [("id-1.json", "v1")], worktree := [("id-1.json", "v1")] },
            LocalGitRepositoryCommunicator.eventsOfGetFileTimeline "id-1.json"
              { commits := [⟨"c0ffee", "title", "ann", 7, [("id-1.json", "v1")]⟩],
                index := [("id-1.json", "v1")], worktree := [("id-1.json", "v1")] }])).map
        (fun g => (g.pending, accessesUnderForeignLock g.done none)) =
      some ([[], []],
        [(1, .access "repository.Head"), (1, .access "repository.Log"),
          (1, .access "historyIterator.ForEach")]) := by
  constructor
  · rfl
  · decide

/-! ## The path of a document -/

/-- Two ids with the same path are the same id. -/
theorem path_injective (a b : String) (h : a ++ ".json" = b ++ ".json") : a = b := by
  have h2 := congrArg String.data h
  simp only [String.data_append] at h2
  exact String.ext (List.append_cancel_right h2)

/-- C12. The document-id to file-path mapping is the same in every operation and injective:
on the backend that writes down the path it is asked for, CreatePost and EditPost call
CommitFile once, with the path id ++ ".json", GetPost and GetPostVersion read the path
id ++ ".json", GetPostTimeline asks for the history of the path id ++ ".json"; and for all
ids a and b, a ++ ".json" = b ++ ".json" implies a = b. -/
theorem post_path_shared_and_injective (newUUID id v : String) (post : PostContent)
    (s : List String) :
    (GitStorage.CreatePost echoBackend newUUID post s).2 = s ++ [newUUID ++ ".json"] ∧
    (GitStorage.EditPost echoBackend id post s).2 = s ++ [id ++ ".json"] ∧
    GitStorage.GetPost echoBackend id s = .ok (id ++ ".json") ∧
    GitStorage.GetPostVersion echoBackend id v s =
      .ok { Body := id ++ ".json", Title := "", Username := "" } ∧
    GitStorage.GetPostTimeline echoBackend id s =
      .ok [{ VersionId := id ++ ".json", Title := "", Date := 0, User := "" }] ∧
    ∀ a b : String, a ++ ".json" = b ++ ".json" → a = b := by
  refine ⟨?_, ?_, ?_, ?_, ?_, path_injective⟩
  · rw [createPost_cases]
    simp only [echoBackend]
    split_ifs <;> rfl
  · rw [editPost_cases]
    simp only [echoBackend]
    split_ifs <;> rfl
  · rfl
  · rfl
  · rfl

/-- C12 at concrete ids. -/
theorem post_path_shared_and_injective_witness :
    (GitStorage.EditPost echoBackend "id-1" ⟨"v1", "title", "ann"⟩ []).2 = ["id-1.json"] ∧
    GitStorage.GetPost echoBackend "id-1" [] = .ok "id-1.json" ∧
    ("id-1" ++ ".json" = "id-1" ++ ".json" → "id-1" = "id-1") :=
  have h := post_path_shared_and_injective "id-0" "id-1" "HEAD" ⟨"v1", "title", "ann"⟩ []
  ⟨h.2.1, h.2.2.1, h.2.2.2.2.2 "id-1" "id-1"⟩

/-! ## Versions and documents -/

/-- C13 as stated fails: document id-1 is created, then document id-2; the commit minted
for id-2 is accepted as a version of id-1, although it is not in the timeline of id-1, and
the title and the username returned are those given to the call on id-2. -/
theorem getPostVersion_accepts_foreign_commit :
    GitStorage.GetPostVersion (Local ⟨8, "unused", fun _ => none⟩) "id-1" "decade"
        (runOps [Op.create ⟨7, "c0ffee", fun _ => none⟩ "id-1" ⟨"v1", "title", "ann"⟩,
                 Op.create ⟨9, "decade", fun _ => none⟩ "id-2" ⟨"x", "t2", "bob"⟩] Repository.init) =
      .ok { Body := "v1", Title := "t2", Username := "bob" } ∧
    GitStorage.GetPostTimeline (Local ⟨8, "unused", fun _ => none⟩) "id-1"
        (runOps [Op.create ⟨7, "c0ffee", fun _ => none⟩ "id-1" ⟨"v1", "title", "ann"⟩,
                 Op.create ⟨9, "decade", fun _ => none⟩ "id-2" ⟨"x", "t2", "bob"⟩] Repository.init) =
      .ok [{ VersionId := "c0ffee", Title := "title", Date := 7, User := "ann" }] :=
  ⟨by rfl, by rfl⟩

/-- GetFileContent on the local repository succeeds exactly when the revision resolves to
a commit whose tree has the file. -/
theorem getFileContent_ok_iff (w : World) (filename rev content : String) (commit : Commit)
    (r : Repository) :
    LocalGitRepositoryCommunicator.GetFileContent w filename rev r = .ok (content, commit) ↔
      ∃ (h : String) (c : CommitObject),
        r.ResolveRevision w rev = .ok h ∧ r.CommitObject h = .ok c ∧
        c.Tree.get filename = some content ∧
        commit = { Message := c.Message, Author := c.AuthorName, Date := c.AuthorWhen,
                   CommitId := c.Hash } := by
  cases h1 : r.ResolveRevision w rev with
  | error e => simp [LocalGitRepositoryCommunicator.GetFileContent, h1]
  | ok h =>
    cases h2 : r.CommitObject h with
    | error e => simp [LocalGitRepositoryCommunicator.GetFileContent, h1, h2]
    | ok c =>
      cases h3 : c.Tree.get filename with
      | none => simp [LocalGitRepositoryCommunicator.GetFileContent, h1, h2, Repository.File, h3]
      | some content' =>
        simp only [LocalGitRepositoryCommunicator.GetFileContent, h1, h2, Repository.File, h3,
          Except.ok.injEq, Prod.mk.injEq]
        constructor
        · rintro ⟨rfl, rfl⟩
          exact ⟨h, c, rfl, h2, h3, rfl⟩
        · rintro ⟨h', c', hh', hc', hcont, hcommit⟩
          cases hh'
          rw [h2] at hc'
          cases hc'
          rw [h3] at hcont
          exact ⟨Option.some.inj hcont, hcommit.symm⟩

/-- C13, as the code has it. Whatever revisions go-git resolves (the name HEAD, the full
name of a commit, and any other revision expression: a branch name, HEAD~n, an abbreviated
name), GetPostVersion(X, v) succeeds exactly when go-git resolves v to a stored commit whose
tree has the file of X, whichever document that commit was made for; it returns the content
of the file in that commit, with the message of that commit as title and its author as
username. When the names of the stored commits are distinct, v is not HEAD and v is the
version id of an entry of GetPostTimeline(X), the title and the username returned are those
of that entry. -/
theorem getPostVersion_reads_resolved_commit (w : World) (X v : String) (r : Repository)
    (p : PostContent) :
    (GitStorage.GetPostVersion (Local w) X v r = .ok p ↔
      ∃ (h : String) (c : CommitObject),
        r.ResolveRevision w v = .ok h ∧ r.CommitObject h = .ok c ∧
        c.Tree.get (X ++ ".json") = some p.Body ∧
        c.Message = p.Title ∧ c.AuthorName = p.Username) ∧
    (r.hashes.Nodup → v ≠ "HEAD" →
      GitStorage.GetPostVersion (Local w) X v r = .ok p →
      ∀ (old : List PostVersionMetadata) (e : PostVersionMetadata),
        GitStorage.GetPostTimeline (Local w) X r = .ok old → e ∈ old → e.VersionId = v →
        p.Title = e.Title ∧ p.Username = e.User) := by
  have hiff : GitStorage.GetPostVersion (Local w) X v r = .ok p ↔
      ∃ (h : String) (c : CommitObject),
        r.ResolveRevision w v = .ok h ∧ r.CommitObject h = .ok c ∧
        c.Tree.get (X ++ ".json") = some p.Body ∧
        c.Message = p.Title ∧ c.AuthorName = p.Username := by
    constructor
    · intro hok
      simp only [GitStorage.GetPostVersion, Local] at hok
      cases hg : LocalGitRepositoryCommunicator.GetFileContent w (X ++ ".json") v r with
      | error e => simp [hg] at hok
      | ok res =>
        obtain ⟨content, commit⟩ := res
        simp only [hg, Except.ok.injEq] at hok
        obtain ⟨h, c, h1, h2, h3, h4⟩ :=
          (getFileContent_ok_iff w (X ++ ".json") v content commit r).mp hg
        subst hok h4
        exact ⟨h, c, h1, h2, h3, rfl, rfl⟩
    · rintro ⟨h, c, h1, h2, h3, h4, h5⟩
      have hg := (getFileContent_ok_iff w (X ++ ".json") v p.Body
        { Message := c.Message, Author := c.AuthorName, Date := c.AuthorWhen,
          CommitId := c.Hash } r).mpr ⟨h, c, h1, h2, h3, rfl⟩
      simp only [GitStorage.GetPostVersion, Local, hg, h4, h5]
  refine ⟨hiff, ?_⟩
  intro hnodup hv hok old e hold he hev
  obtain ⟨h, c, h1, h2, _, h4, h5⟩ := hiff.mp hok
  -- the commit behind the timeline entry
  rw [getPostTimeline_local] at hold
  have hd : ∃ d ∈ r.commits, d.Hash = v ∧ summaryOf d = e := by
    obtain ⟨commits, idx, wt⟩ := r
    cases commits with
    | nil => simp at hold
    | cons d ds =>
      simp only [Except.ok.injEq] at hold
      subst hold
      obtain ⟨d', hd', hsum⟩ := List.mem_map.mp he
      exact ⟨d', log_subset _ _ d' hd', by rw [← hev, ← hsum]; rfl, hsum⟩
  obtain ⟨d, hdmem, hdv, hsum⟩ := hd
  -- the commit the version id resolves to: v is the full name of a stored commit
  simp only [Repository.ResolveRevision, if_neg hv] at h1
  cases hf : r.commits.find? (fun c => decide (c.Hash = v)) with
  | none =>
    have hnot := List.find?_eq_none.mp hf d hdmem
    simp [hdv] at hnot
  | some c0 =>
    have hc0 : c0.Hash = v := by simpa using List.find?_some hf
    simp only [hf, Except.ok.injEq] at h1
    have hh : h = v := by rw [← h1, hc0]
    subst hh
    simp only [Repository.CommitObject, hf, Except.ok.injEq] at h2
    subst h2
    have hcmem : c0 ∈ r.commits := List.mem_of_find?_eq_some hf
    have heq : d = c0 :=
      List.inj_on_of_nodup_map hnodup hdmem hcmem (by rw [hdv, hc0])
    subst heq
    rw [← hsum, ← h4, ← h5]
    exact ⟨rfl, rfl⟩

/-- The amended C13 at concrete inputs, documents id-1 and id-2 created in this order: the
branch name master, which go-git resolves to the tip, is accepted as a version of id-1 and
reads the body of id-1 with the title and username of the commit made for id-2; the version
made by the creation of id-1 reads the title and username of its timeline entry. -/
theorem getPostVersion_reads_resolved_commit_witness :
    GitStorage.GetPostVersion (Local ⟨8, "unused", masterAt "decade"⟩) "id-1" "master"
        (runOps [Op.create ⟨7, "c0ffee", fun _ => none⟩ "id-1" ⟨"v1", "title", "ann"⟩,
                 Op.create ⟨9, "decade", fun _ => none⟩ "id-2" ⟨"x", "t2", "bob"⟩]
          Repository.init) =
      .ok ⟨"v1", "t2", "bob"⟩ ∧
    GitStorage.GetPostVersion (Local ⟨8, "unused", masterAt "decade"⟩) "id-1" "c0ffee"
        (runOps [Op.create ⟨7, "c0ffee", fun _ => none⟩ "id-1" ⟨"v1", "title", "ann"⟩,
                 Op.create ⟨9, "decade", fun _ => none⟩ "id-2" ⟨"x", "t2", "bob"⟩]
          Repository.init) =
      .ok ⟨"v1", "title", "ann"⟩ ∧
    GitStorage.GetPostTimeline (Local ⟨8, "unused", masterAt "decade"⟩) "id-1"
        (runOps [Op.create ⟨7, "c0ffee", fun _ => none⟩ "id-1" ⟨"v1", "title", "ann"⟩,
                 Op.create ⟨9, "decade", fun _ => none⟩ "id-2" ⟨"x", "t2", "bob"⟩]
          Repository.init) =
      .ok [⟨"c0ffee", "title", 7, "ann"⟩] ∧
    PostContent.Title ⟨"v1", "title", "ann"⟩ =
        PostVersionMetadata.Title ⟨"c0ffee", "title", 7, "ann"⟩ ∧
      PostContent.Username ⟨"v1", "title", "ann"⟩ =
        PostVersionMetadata.User ⟨"c0ffee", "title", 7, "ann"⟩ :=
  ⟨(getPostVersion_reads_resolved_commit ⟨8, "unused", masterAt "decade"⟩ "id-1" "master"
      (runOps [Op.create ⟨7, "c0ffee", fun _ => none⟩ "id-1" ⟨"v1", "title", "ann"⟩,
               Op.create ⟨9, "decade", fun _ => none⟩ "id-2" ⟨"x", "t2", "bob"⟩]
        Repository.init)
      ⟨"v1", "t2", "bob"⟩).1.mpr
      ⟨"decade", ⟨"decade", "t2", "bob", 9, [("id-1.json", "v1"), ("id-2.json", "x")]⟩,
        by rfl, by rfl, by rfl, rfl, rfl⟩,
    by rfl, by rfl,
    (getPostVersion_reads_resolved_commit ⟨8, "unused", masterAt "decade"⟩ "id-1" "c0ffee"
      (runOps [Op.create ⟨7, "c0ffee", fun _ => none⟩ "id-1" ⟨"v1", "title", "ann"⟩,
               Op.create ⟨9, "decade", fun _ => none⟩ "id-2" ⟨"x", "t2", "bob"⟩]
        Repository.init)
      ⟨"v1", "title", "ann"⟩).2 (by decide) (by decide) (by rfl)
      [⟨"c0ffee", "title", 7, "ann"⟩] ⟨"c0ffee", "title", 7, "ann"⟩ (by rfl)
      (List.mem_singleton.mpr rfl) rfl⟩

end GitTimeline
